import Mathlib

/-!
Verification of the proto-island world-generation core.

This file gives a shallow embedding of the generation pipeline of the
proto-island repository (src/proto_island/cave.py, structure.py, map.py)
and proves/refutes the frozen specification claims about it.

External libraries (numpy RandomState, Python random.Random, tcod noise,
numpy float sqrt) are modelled abstractly:
  - a pseudo-random generator is an arbitrary stream of naturals
    (a function from a draw index to a natural number); a bounded draw
    such as Python randint(lo, hi) maps the raw draw into the interval
    by a modulus, so any stream yields in-range values;
  - the tcod noise field is an arbitrary per-cell rational value;
  - numpy float sqrt is modelled by a rational Newton approximation
    (only coarse bounds on it are ever used).

Machine floats are modelled by rationals; Python integers by Lean
integers; numpy boolean grids by functions from coordinates to Bool
together with explicit dimensions (out-of-range coordinates are never
consulted by the theorems).
-/

namespace ProtoIsland

/-- Model of Python random.Random.randint(lo, hi) / numpy randint: one raw
draw v from the generator stream is mapped into the inclusive interval
[lo, hi]. For lo ≤ hi the result always lies in that interval. -/
def randint (lo hi : ℤ) (v : ℕ) : ℤ :=
  lo + (v : ℤ) % (hi - lo + 1)

/-! ## BSP partitioning (structure.py, class BSPNode) -/

/-- A rectangle as stored on a BSPNode: top-left corner (x, y) and extents. -/
structure Rect where
  x : ℤ
  y : ℤ
  width : ℤ
  height : ℤ
deriving DecidableEq

/-- Cell (a, b) lies inside rectangle r (half-open extents, as Python uses
the rectangle: columns x..x+width-1, rows y..y+height-1). -/
def inRect (r : Rect) (a b : ℤ) : Prop :=
  r.x ≤ a ∧ a < r.x + r.width ∧ r.y ≤ b ∧ b < r.y + r.height

instance (r : Rect) (a b : ℤ) : Decidable (inRect r a b) := by
  unfold inRect; infer_instance

/-- The two children of a horizontal split of n at offset s: left keeps
the y extent and takes width s, right takes the remaining width. -/
def splitPairH (n : Rect) (s : ℤ) : Rect × Rect :=
  (⟨n.x, n.y, s, n.height⟩, ⟨n.x + s, n.y, n.width - s, n.height⟩)

/-- The two children of a vertical split of n at offset s. -/
def splitPairV (n : Rect) (s : ℤ) : Rect × Rect :=
  (⟨n.x, n.y, n.width, s⟩, ⟨n.x, n.y + s, n.width, n.height - s⟩)

/-- Model of BSPNode.split (structure.py lines 51-83). Returns the two
children when the split succeeds, none otherwise. The generator stream g
is consumed as in the source: when the aspect ratio does not force an
orientation, draw 0 decides the coin rng.random() < 0.5 (modelled by
parity) and draw 1 feeds rng.randint for the split offset; in the forced
branches draw 0 feeds rng.randint. Python float division in the aspect
test is modelled by exact rational division. -/
def split (n : Rect) (min_size : ℤ) (g : ℕ → ℕ) : Option (Rect × Rect) :=
  if n.width < min_size * 2 ∨ n.height < min_size * 2 then none
  else if n.height < n.width ∧ (5 : ℚ) / 4 ≤ (n.width : ℚ) / (n.height : ℚ) then
    some (splitPairH n (randint min_size (n.width - min_size) (g 0)))
  else if n.width < n.height ∧ (5 : ℚ) / 4 ≤ (n.height : ℚ) / (n.width : ℚ) then
    some (splitPairV n (randint min_size (n.height - min_size) (g 0)))
  else if g 0 % 2 = 0 then
    some (splitPairH n (randint min_size (n.width - min_size) (g 1)))
  else
    some (splitPairV n (randint min_size (n.height - min_size) (g 1)))

/-- The room rectangle BSPNode.create_room builds for a drawn padding p:
each dimension shrinks by twice the padding but never below 3, the
top-left corner moves in by the padding plus, when the padding exceeds 1,
a drawn extra offset of at most padding / 2. -/
def roomFromPadding (n : Rect) (p : ℤ) (g : ℕ → ℕ) : Rect :=
  ⟨n.x + p + (if p > 1 then randint 0 (p / 2) (g 1) else 0),
   n.y + p + (if p > 1 then randint 0 (p / 2) (g 2) else 0),
   max 3 (n.width - p * 2),
   max 3 (n.height - p * 2)⟩

/-- Model of BSPNode.create_room (structure.py lines 85-112). Draw order
follows the source: one draw for the padding, then (only when padding > 1)
one draw for the x offset and one for the y offset. -/
def create_room (n : Rect) (g : ℕ → ℕ) : Option Rect :=
  if n.width < 3 ∨ n.height < 3 then none
  else some (roomFromPadding n (randint 1 2 (g 0)) g)

/-- Room r lies strictly inside node n with margin at least 1 on every side. -/
def containedWithMargin (r n : Rect) : Prop :=
  n.x + 1 ≤ r.x ∧ r.x + r.width + 1 ≤ n.x + n.width ∧
  n.y + 1 ≤ r.y ∧ r.y + r.height + 1 ≤ n.y + n.height

instance (r n : Rect) : Decidable (containedWithMargin r n) := by
  unfold containedWithMargin; infer_instance

/-! ## Seed derivation in StructureGenerator.generate_buildings -/

/-- Model of the per-building seed derivation in
StructureGenerator.generate_buildings (structure.py lines 565 and 572):
the Python expression is written as seed + i if seed else None. Python
truthiness makes the condition False both when seed is None and when
seed == 0, and a None seed means random.Random(None), i.e. the building
generator is seeded from system entropy, not from the caller's seed. -/
def deriveBuildingSeed (seed : Option ℤ) (i : ℕ) : Option ℤ :=
  match seed with
  | none => none
  | some s => if s ≠ 0 then some (s + (i : ℤ)) else none

/-! ## Terrain types and the level-graph state (map.py, class GameMap) -/

/-- Model of TerrainType (map.py lines 8-17). -/
inductive Terrain where
  | WATER
  | BEACH
  | GRASS
  | ROCK
  | FOREST
  | CAVE_WALL
  | CAVE_FLOOR
  | CAVE_ENTRANCE
deriving DecidableEq

/-- The GameMap state relevant to level management, transitions, cave
application and cave-entrance placement: per-level tile and heightmap
grids keyed by the z index (a total function defaulting to the values a
freshly created level holds), the set of existing level keys, the
transition table, and the current level. Grids are indexed (y, x) as the
numpy arrays are. -/
structure MapState where
  width : ℕ
  height : ℕ
  currentZ : ℤ
  zLevels : List ℤ
  tiles : ℤ → ℕ → ℕ → Terrain
  heightmap : ℤ → ℕ → ℕ → ℚ
  transitions : ℤ → ℤ → List (ℤ × ℤ)

/-- Model of GameMap.add_z_level (map.py lines 53-67): fails on a
duplicate key, otherwise registers the level with a fresh all-GRASS tile
grid, a zero heightmap and an empty transition entry. -/
def add_z_level (m : MapState) (z : ℤ) : Except String MapState :=
  if z ∈ m.zLevels then .error "Z-level already exists"
  else .ok { m with
    zLevels := z :: m.zLevels
    tiles := fun z' y x => if z' = z then .GRASS else m.tiles z' y x
    heightmap := fun z' y x => if z' = z then 0 else m.heightmap z' y x
    transitions := fun a b => if a = z then [] else m.transitions a b }

/-- Point update of the transition table at one (source, target) entry. -/
def setTrans (t : ℤ → ℤ → List (ℤ × ℤ)) (a b : ℤ) (l : List (ℤ × ℤ)) :
    ℤ → ℤ → List (ℤ × ℤ) :=
  fun a' b' => if a' = a ∧ b' = b then l else t a' b'

/-- Model of GameMap.add_level_transition (map.py lines 94-117): fails if
either level is missing; otherwise appends (x, y) to the source level's
entry for the target and then appends the same pair to the target
level's entry for the source. -/
def add_level_transition (m : MapState) (from_z to_z : ℤ) (x y : ℤ) :
    Except String MapState :=
  if from_z ∉ m.zLevels ∨ to_z ∉ m.zLevels then
    .error "Source or target z-level does not exist"
  else
    let t1 := setTrans m.transitions from_z to_z (m.transitions from_z to_z ++ [(x, y)])
    let t2 := setTrans t1 to_z from_z (t1 to_z from_z ++ [(x, y)])
    .ok { m with transitions := t2 }

/-- Model of GameMap.apply_cave_layout (map.py lines 377-398): the shape
check precedes every write; on success the current level's tiles become
cave wall/floor and its heightmap 0.8 for walls, 0.2 for floors. -/
def apply_cave_layout (m : MapState) (ch cw : ℕ) (cave : ℕ → ℕ → Bool) :
    Except String MapState :=
  if ¬(ch = m.height ∧ cw = m.width) then
    .error "Cave layout dimensions must match map dimensions"
  else .ok { m with
    tiles := fun z y x =>
      if z = m.currentZ then (if cave y x then .CAVE_WALL else .CAVE_FLOOR)
      else m.tiles z y x
    heightmap := fun z y x =>
      if z = m.currentZ then (if cave y x then 8/10 else 2/10)
      else m.heightmap z y x }

/-- The list of suitable entrance cells of the current level, in the
row-major order of numpy where: cells whose terrain is neither WATER nor
BEACH, as (y, x). -/
def suitableList (m : MapState) : List (ℕ × ℕ) :=
  (List.range m.height).flatMap fun y =>
    (List.range m.width).filterMap fun x =>
      if m.tiles m.currentZ y x ≠ .WATER ∧ m.tiles m.currentZ y x ≠ .BEACH
      then some (y, x) else none

/-- Mark the tile (ey, ex) of the current level as the cave entrance. -/
def markEntrance (m : MapState) (ey ex : ℕ) : MapState :=
  { m with tiles := fun z y x =>
      if z = m.currentZ ∧ y = ey ∧ x = ex then .CAVE_ENTRANCE else m.tiles z y x }

/-- Create the underground level -1 when it does not exist yet (map.py
lines 427-429). -/
def ensureUnderground (m : MapState) : Except String MapState :=
  if (-1 : ℤ) ∈ m.zLevels then pure m else add_z_level m (-1)

/-- Model of GameMap.generate_cave_entrance (map.py lines 400-434): fail
when no cell is suitable; otherwise pick a suitable cell with one
generator draw, mark it CAVE_ENTRANCE, create level -1 if absent, record
the transition pair between the current level and level -1, and return
the (x, y) entrance. -/
def generate_cave_entrance (m : MapState) (g : ℕ → ℕ) :
    Except String (MapState × ℕ × ℕ) :=
  if (suitableList m).length = 0 then
    .error "No suitable location for cave entrance"
  else
    let e := (suitableList m).getD (g 0 % (suitableList m).length) (0, 0)
    match ensureUnderground (markEntrance m e.1 e.2) with
    | .error s => .error s
    | .ok m2 =>
      match add_level_transition m2 m.currentZ (-1) (e.2 : ℤ) (e.1 : ℤ) with
      | .error s => .error s
      | .ok m3 => .ok (m3, e.2, e.1)

/-! ## Vertical connections (structure.py, StructureGenerator) -/

/-- Model of StairType (structure.py lines 20-30). -/
inductive Stair where
  | STAIR_UP
  | STAIR_DOWN
  | LADDER_UP
  | LADDER_DOWN
deriving DecidableEq

/-- Model of StructureType (structure.py lines 7-18). -/
inductive SType where
  | HOUSE
  | SHOP
  | TEMPLE
  | WORKSHOP
  | STORAGE
deriving DecidableEq

/-- One vertical connection record as built by
StructureGenerator._generate_vertical_connections. -/
structure VertConn where
  type : Stair
  position : ℤ × ℤ
  target_floor : ℕ
  target_position : ℤ × ℤ
deriving DecidableEq

/-- The complementary connector kind (ascend to descend and back, stair
stays stair, ladder stays ladder). -/
def complementKind : Stair → Stair
  | .STAIR_UP => .STAIR_DOWN
  | .STAIR_DOWN => .STAIR_UP
  | .LADDER_UP => .LADDER_DOWN
  | .LADDER_DOWN => .LADDER_UP

/-- Append one connection to one floor of a connections table. -/
def pushConn (vcs : ℕ → List VertConn) (f : ℕ) (c : VertConn) :
    ℕ → List VertConn :=
  fun f' => if f' = f then vcs f' ++ [c] else vcs f'

/-- The connector kind drawn for one floor pair: stairs by default; for
WORKSHOP/STORAGE buildings a 70 percent roll (rng.random() < 0.7,
modelled as one draw taken mod 10 compared with 7) turns it into a
ladder. The draw index is k + 6, after the six coordinate draws. -/
def drawnStair (st : SType) (g : ℕ → ℕ) (k : ℕ) : Stair :=
  if (st = SType.STORAGE ∨ st = SType.WORKSHOP) ∧ g (k + 6) % 10 < 7
  then .LADDER_UP else .STAIR_UP

/-- The number of draws one processed floor pair consumes. -/
def vcDraws (st : SType) : ℕ :=
  if st = SType.STORAGE ∨ st = SType.WORKSHOP then 7 else 6

/-- The pair of connection records built for the floor pair (f, f + 1)
by StructureGenerator._generate_vertical_connections (structure.py lines
472-519): a room index and an interior stair position are drawn on each
floor, the upward record is stored on floor f, and the reciprocal
downward record (the source writes STAIR_DOWN if the type is STAIR_UP
else LADDER_DOWN) on floor f + 1, with position and target swapped. -/
def vcPair (st : SType) (fr : ℕ → List Rect) (g : ℕ → ℕ) (f k : ℕ) :
    VertConn × VertConn :=
  let cur := fr f
  let nxt := fr (f + 1)
  let cr := cur.getD (randint 0 (cur.length - 1) (g k)).toNat ⟨0, 0, 0, 0⟩
  let nr := nxt.getD (randint 0 (nxt.length - 1) (g (k + 1))).toNat ⟨0, 0, 0, 0⟩
  let sx := cr.x + randint 1 (cr.width - 2) (g (k + 2))
  let sy := cr.y + randint 1 (cr.height - 2) (g (k + 3))
  let nx := nr.x + randint 1 (nr.width - 2) (g (k + 4))
  let ny := nr.y + randint 1 (nr.height - 2) (g (k + 5))
  let stype := drawnStair st g k
  (⟨stype, (sx, sy), f + 1, (nx, ny)⟩,
   ⟨if stype = Stair.STAIR_UP then Stair.STAIR_DOWN else Stair.LADDER_DOWN,
    (nx, ny), f, (sx, sy)⟩)

/-- Loop of StructureGenerator._generate_vertical_connections (structure.py
lines 464-519) over the floors to process; floors with no rooms on either
side are skipped, otherwise the up/down pair is appended to the two
floors' lists and the draw counter advances. -/
def vcLoop (st : SType) (fr : ℕ → List Rect) (g : ℕ → ℕ) :
    List ℕ → ℕ → (ℕ → List VertConn) → (ℕ → List VertConn)
  | [], _, acc => acc
  | f :: rest, k, acc =>
    if (fr f).length = 0 ∨ (fr (f + 1)).length = 0 then vcLoop st fr g rest k acc
    else
      vcLoop st fr g rest (k + vcDraws st)
        (pushConn (pushConn acc f (vcPair st fr g f k).1) (f + 1)
          (vcPair st fr g f k).2)

/-- Model of StructureGenerator._generate_vertical_connections
(structure.py lines 446-521): empty for single-floor buildings, else the
loop over floor pairs (floor, floor+1) for floor in range(floors-1). -/
def generate_vertical_connections (st : SType) (fr : ℕ → List Rect)
    (floors : ℕ) (g : ℕ → ℕ) : ℕ → List VertConn :=
  if floors ≤ 1 then fun _ => []
  else vcLoop st fr g (List.range (floors - 1)) 0 (fun _ => [])

/-- Every connection entry has a reciprocal entry on its target floor
with the complementary kind and the position/target-position swapped. -/
def reciprocalIn (vcs : ℕ → List VertConn) : Prop :=
  ∀ f c, c ∈ vcs f → ∃ c', c' ∈ vcs c.target_floor ∧
    c'.type = complementKind c.type ∧
    c'.position = c.target_position ∧
    c'.target_position = c.position ∧
    c'.target_floor = f

/-! ## Heightfield normalization (map.py, GameMap) -/

/-- Row-major list of all values of an height-by-width grid. -/
def gridVals (hh ww : ℕ) (f : ℕ → ℕ → ℚ) : List ℚ :=
  (List.range hh).flatMap fun y => (List.range ww).map fun x => f y x

/-- Minimum of a grid (np.min); for a nonempty grid the fold base f 0 0
is itself a grid value, so this is the exact minimum. -/
def gridMin (hh ww : ℕ) (f : ℕ → ℕ → ℚ) : ℚ :=
  (gridVals hh ww f).foldr min (f 0 0)

/-- Maximum of a grid (np.max), same convention as gridMin. -/
def gridMax (hh ww : ℕ) (f : ℕ → ℕ → ℚ) : ℚ :=
  (gridVals hh ww f).foldr max (f 0 0)

/-- Model of GameMap._normalize_heightmap (map.py lines 236-241): rescale
by (v - min) / (max - min) when max > min, and leave the grid unchanged
when max == min. -/
def normalizeHeightmap (hh ww : ℕ) (f : ℕ → ℕ → ℚ) : ℕ → ℕ → ℚ :=
  if gridMin hh ww f < gridMax hh ww f then
    fun y x => (f y x - gridMin hh ww f) / (gridMax hh ww f - gridMin hh ww f)
  else f

/-- Model of np.linspace(-0.5, 0.5, n) at index i. -/
def linspace (n : ℕ) (i : ℕ) : ℚ :=
  if n ≤ 1 then -(1/2) else -(1/2) + (i : ℚ) / ((n : ℚ) - 1)

/-- One Newton step for the square root of q. -/
def newtonStep (q x : ℚ) : ℚ := (x + q / x) / 2

/-- Rational stand-in for the numpy float sqrt: five Newton steps from
max 1 q. Only coarse bounds on its value are used (for the input 2 it
lies strictly above 1, as the exact float sqrt does). -/
def sqrtApprox (q : ℚ) : ℚ :=
  newtonStep q (newtonStep q (newtonStep q (newtonStep q (newtonStep q (max 1 q)))))

/-- The raw (pre-normalization) heightmap of GameMap.generate_terrain
(map.py lines 147-185): per cell, the noise value is rescaled from
[-1, 1] to [0, 1] and multiplied by the radial island mask
d = 1 - sqrt(dx^2 + dy^2) with dx, dy the doubled linspace coordinates.
The external tcod noise field is an arbitrary per-cell rational. -/
def rawHeightmap (noise : ℕ → ℕ → ℚ) (ww hh : ℕ) : ℕ → ℕ → ℚ :=
  fun y x =>
    let dx := linspace ww x * 2
    let dy := linspace hh y * 2
    let d := 1 - sqrtApprox (dx * dx + dy * dy)
    (noise y x + 1) / 2 * d

/-- The heightmap produced by GameMap.generate_terrain: the raw masked
noise grid, normalized by GameMap._normalize_heightmap. -/
def generateTerrainHeightmap (noise : ℕ → ℕ → ℚ) (ww hh : ℕ) : ℕ → ℕ → ℚ :=
  normalizeHeightmap hh ww (rawHeightmap noise ww hh)

/-! ## Cave automaton (cave.py, class CaveGenerator)

A cave grid of shape (height, width) is a function from (y, x) to Bool,
true meaning wall, together with the explicit dimensions; only in-range
coordinates are ever consulted by the theorems. -/

/-- Model of CaveParams (cave.py lines 7-13). -/
structure CaveParams where
  initial_fill_probability : ℚ
  birth_limit : ℕ
  death_limit : ℕ
  iterations : ℕ

/-- The eight Moore-neighborhood offsets (the cell itself excluded). -/
def mooreOffsets : List (ℤ × ℤ) :=
  [(-1, -1), (-1, 0), (-1, 1), (0, -1), (0, 1), (1, -1), (1, 0), (1, 1)]

/-- Wall-neighbor count of cell (y, x) over the full 8-connected Moore
neighborhood, cell itself excluded; cells outside the grid count zero
(scipy convolve2d in mode same zero-pads the boundary). -/
def neighborCount (hh ww : ℕ) (c : ℕ → ℕ → Bool) (y x : ℕ) : ℕ :=
  mooreOffsets.countP fun d =>
    decide (0 ≤ (y : ℤ) + d.1 ∧ (y : ℤ) + d.1 < (hh : ℤ) ∧
            0 ≤ (x : ℤ) + d.2 ∧ (x : ℤ) + d.2 < (ww : ℤ) ∧
            c ((y : ℤ) + d.1).toNat ((x : ℤ) + d.2).toNat = true)

/-- Model of CaveGenerator._apply_automata_rules (cave.py lines 51-80).
The source writes birth first and death second onto a copy, so a count
below the death limit yields floor even when it also reaches the birth
limit; afterwards the whole border is forced to walls. -/
def applyAutomataRules (p : CaveParams) (hh ww : ℕ) (c : ℕ → ℕ → Bool) :
    ℕ → ℕ → Bool :=
  fun y x =>
    if y = 0 ∨ y = hh - 1 ∨ x = 0 ∨ x = ww - 1 then true
    else
      let n := neighborCount hh ww c y x
      if n < p.death_limit then false
      else if p.birth_limit ≤ n then true
      else c y x

/-- The initial random cave layout of CaveGenerator.generate (cave.py
line 40): each cell is a wall when its uniform draw is below the fill
probability. The numpy uniform draws are an arbitrary per-cell rational. -/
def caveInit (p : CaveParams) (u : ℕ → ℕ → ℚ) : ℕ → ℕ → Bool :=
  fun y x => decide (u y x < p.initial_fill_probability)

/-! ## Region connectivity repair (cave.py, CaveGenerator._ensure_connectivity) -/

/-- All grid cells as a finite set of (y, x) pairs. -/
def cells (hh ww : ℕ) : Finset (ℕ × ℕ) :=
  Finset.range hh ×ˢ Finset.range ww

/-- The open (non-wall) cells of a cave grid. -/
def openCells (hh ww : ℕ) (c : ℕ → ℕ → Bool) : Finset (ℕ × ℕ) :=
  (cells hh ww).filter fun q => c q.1 q.2 = false

/-- 4-connected adjacency of two cells. -/
def adj4 (p q : ℕ × ℕ) : Prop :=
  (p.1 = q.1 ∧ (p.2 + 1 = q.2 ∨ q.2 + 1 = p.2)) ∨
  (p.2 = q.2 ∧ (p.1 + 1 = q.1 ∨ q.1 + 1 = p.1))

instance (p q : ℕ × ℕ) : Decidable (adj4 p q) := by
  unfold adj4; infer_instance

/-- One step of a 4-connected flood fill inside the open set o: the
current front s grows by every open cell adjacent to it. -/
def grow (o s : Finset (ℕ × ℕ)) : Finset (ℕ × ℕ) :=
  s ∪ o.filter fun q => ∃ r ∈ s, adj4 r q

/-- Flood fill from one cell with the given amount of fuel. -/
def fill (o : Finset (ℕ × ℕ)) (start : ℕ × ℕ) (fuel : ℕ) : Finset (ℕ × ℕ) :=
  (grow o)^[fuel] {start}

/-- The 4-connected component of start inside o: the flood fill saturates
after card o steps. This is the mathematical contract of
scipy.ndimage.label with the default (4-connected) structuring element,
which cave.py invokes on the open cells. -/
def component (o : Finset (ℕ × ℕ)) (start : ℕ × ℕ) : Finset (ℕ × ℕ) :=
  fill o start o.card

/-- Row-major scan order of the grid cells, matching both the label order
of scipy.ndimage.label and the order of numpy where. -/
def scanList (hh ww : ℕ) : List (ℕ × ℕ) :=
  (List.range hh).flatMap fun y => (List.range ww).map fun x => (y, x)

/-- Accumulate the distinct 4-connected components of o in first-cell
scan order: scanning cell by cell, a new component is recorded whenever
an open cell belongs to no component found so far. -/
def componentsAux (o : Finset (ℕ × ℕ)) :
    List (ℕ × ℕ) → List (Finset (ℕ × ℕ)) → List (Finset (ℕ × ℕ))
  | [], acc => acc.reverse
  | q :: rest, acc =>
    if q ∈ o ∧ ∀ K ∈ acc, q ∉ K then componentsAux o rest (component o q :: acc)
    else componentsAux o rest acc

/-- The components of the open cells of a cave grid, in label order. -/
def componentsOf (hh ww : ℕ) (c : ℕ → ℕ → Bool) : List (Finset (ℕ × ℕ)) :=
  componentsAux (openCells hh ww c) (scanList hh ww) []

/-- Index of the first component of maximal size: np.argmax over the
region sizes keeps the first occurrence of the maximum. -/
def argmaxSizes (l : List (Finset (ℕ × ℕ))) : ℕ :=
  (List.range l.length).foldl
    (fun best i => if (l.getD best ∅).card < (l.getD i ∅).card then i else best) 0

/-- The cells of a region in the row-major order of numpy where. -/
def pointsList (hh ww : ℕ) (K : Finset (ℕ × ℕ)) : List (ℕ × ℕ) :=
  (scanList hh ww).filter fun q => q ∈ K

/-- n sampled cells from a point list, one generator draw each, the raw
draw reduced mod the list length. (The source uses rng.choice without
replacement; the properties proved only need each sample to belong to
the list, so the model does not enforce distinctness.) -/
def samplePoints (pts : List (ℕ × ℕ)) (n : ℕ) (g : ℕ → ℕ) (k : ℕ) :
    List (ℕ × ℕ) :=
  (List.range n).map fun i => pts.getD (g (k + i) % pts.length) (0, 0)

/-- Manhattan distance between two cells. -/
def manhattan (p q : ℕ × ℕ) : ℕ :=
  Nat.dist p.1 q.1 + Nat.dist p.2 q.2

/-- The candidate pairs scanned by the nearest-pair search, in source
order: for the i-th sampled source point, a fresh batch of nt target
samples is drawn (cave.py lines 129-137). -/
def candidates (srcs tgtPts : List (ℕ × ℕ)) (nt : ℕ) (g : ℕ → ℕ) (k : ℕ) :
    List ((ℕ × ℕ) × (ℕ × ℕ)) :=
  (List.range srcs.length).flatMap fun i =>
    (samplePoints tgtPts nt g (k + i * nt)).map fun q => (srcs.getD i (0, 0), q)

/-- One comparison of the running nearest-pair scan: the candidate pq
replaces the current best exactly when its Manhattan distance is
strictly smaller (min_dist starts at infinity, so the first candidate
always wins). -/
def betterPair (best : Option ((ℕ × ℕ) × (ℕ × ℕ))) (pq : (ℕ × ℕ) × (ℕ × ℕ)) :
    Option ((ℕ × ℕ) × (ℕ × ℕ)) :=
  match best with
  | none => some pq
  | some b => if manhattan pq.1 pq.2 < manhattan b.1 b.2 then some pq else best

/-- Scan for the pair of minimal Manhattan distance, keeping the first
strict minimum, exactly as the running min_dist comparison does. -/
def scanMin (cands : List ((ℕ × ℕ) × (ℕ × ℕ))) : Option ((ℕ × ℕ) × (ℕ × ℕ)) :=
  cands.foldl betterPair none

/-- The L-shaped tunnel between the chosen pair: the horizontal segment
at the source row between the two x coordinates, then the vertical
segment at the target column between the two y coordinates. -/
def tunnelCells (p q : ℕ × ℕ) : List (ℕ × ℕ) :=
  ((List.range' (min p.2 q.2) (max p.2 q.2 - min p.2 q.2 + 1)).map fun x => (p.1, x)) ++
  ((List.range' (min p.1 q.1) (max p.1 q.1 - min p.1 q.1 + 1)).map fun y => (y, q.2))

/-- Cell (y, x) is cleared while carving the tunnel pts: either it lies
on the tunnel itself, or it is interior to the grid and within the 3-by-3
buffer of some tunnel cell (cave.py lines 161-171). -/
def carveCell (hh ww : ℕ) (pts : List (ℕ × ℕ)) (y x : ℕ) : Prop :=
  (y, x) ∈ pts ∨
  ∃ t ∈ pts, Nat.dist t.1 y ≤ 1 ∧ Nat.dist t.2 x ≤ 1 ∧
    0 < y ∧ y < hh - 1 ∧ 0 < x ∧ x < ww - 1

instance (hh ww : ℕ) (pts : List (ℕ × ℕ)) (y x : ℕ) :
    Decidable (carveCell hh ww pts y x) := by
  unfold carveCell; infer_instance

/-- The region loop of CaveGenerator._ensure_connectivity (cave.py lines
109-171), over the labelled regions in order, skipping the largest one;
li is the index of the largest region and largestPts its cells. Per
region: sample min 20 source cells, then per source cell a fresh batch
of min 20 target cells, take the first pair of minimal Manhattan
distance, and clear its L-tunnel together with the interior 3-by-3
buffer around every tunnel cell. The counter k tracks generator draws. -/
def processRegions (hh ww : ℕ) (li : ℕ) (largestPts : List (ℕ × ℕ))
    (g : ℕ → ℕ) :
    List (ℕ × Finset (ℕ × ℕ)) → ℕ → (ℕ → ℕ → Bool) → (ℕ → ℕ → Bool)
  | [], _, c => c
  | (i, K) :: rest, k, c =>
    if i = li then processRegions hh ww li largestPts g rest k c
    else
      let pts := pointsList hh ww K
      if pts.length = 0 then processRegions hh ww li largestPts g rest k c
      else
        let ns := min 20 pts.length
        let srcs := samplePoints pts ns g k
        let nt := min 20 largestPts.length
        let cands := candidates srcs largestPts nt g (k + ns)
        match scanMin cands with
        | none => processRegions hh ww li largestPts g rest (k + ns + ns * nt) c
        | some pq =>
          processRegions hh ww li largestPts g rest (k + ns + ns * nt)
            (fun y x => if carveCell hh ww (tunnelCells pq.1 pq.2) y x then false
                        else c y x)

/-- Model of CaveGenerator._ensure_connectivity (cave.py lines 82-173):
label the open cells into 4-connected components; with at most one
component return the grid unchanged; otherwise connect every non-largest
region to the largest one (the first of maximal size, as np.argmax
returns) by a carved tunnel. -/
def ensureConnectivity (hh ww : ℕ) (c : ℕ → ℕ → Bool) (g : ℕ → ℕ) :
    ℕ → ℕ → Bool :=
  if (componentsOf hh ww c).length ≤ 1 then c
  else
    processRegions hh ww (argmaxSizes (componentsOf hh ww c))
      (pointsList hh ww
        ((componentsOf hh ww c).getD (argmaxSizes (componentsOf hh ww c)) ∅))
      g (componentsOf hh ww c).enum 0 c

/-- Model of CaveGenerator.generate (cave.py lines 26-49): the seeded
initial fill, the configured number of automata iterations, then the
connectivity repair. The per-cell uniform draws u and the discrete draw
stream g both stand for the single seeded numpy RandomState. -/
def generate (p : CaveParams) (ww hh : ℕ) (u : ℕ → ℕ → ℚ) (g : ℕ → ℕ) :
    ℕ → ℕ → Bool :=
  ensureConnectivity hh ww ((applyAutomataRules p hh ww)^[p.iterations] (caveInit p u)) g

/-- One step of 4-connected movement between open cells of o. -/
def stepRel (o : Finset (ℕ × ℕ)) (p q : ℕ × ℕ) : Prop :=
  adj4 p q ∧ p ∈ o ∧ q ∈ o

/-- 4-connected reachability inside the open set o: the reflexive
transitive closure of single steps. -/
def Reach (o : Finset (ℕ × ℕ)) : (ℕ × ℕ) → (ℕ × ℕ) → Prop :=
  Relation.ReflTransGen (stepRel o)

/-- Cell s is interior to the grid: not on the outer border. -/
def interiorCell (hh ww : ℕ) (s : ℕ × ℕ) : Prop :=
  0 < s.1 ∧ s.1 < hh - 1 ∧ 0 < s.2 ∧ s.2 < ww - 1

/-! # Theorems -/

theorem randint_mem (lo hi : ℤ) (v : ℕ) (h : lo ≤ hi) :
    lo ≤ randint lo hi v ∧ randint lo hi v ≤ hi := by
  unfold randint
  have hpos : (0 : ℤ) < hi - lo + 1 := by omega
  have h1 := Int.emod_nonneg (v : ℤ) (by omega : hi - lo + 1 ≠ 0)
  have h2 := Int.emod_lt_of_pos (v : ℤ) hpos
  omega

theorem splitPairH_tiles (n : Rect) (m s : ℤ) (l r : Rect) (hm : 0 ≤ m)
    (h1 : m ≤ s) (h2 : s ≤ n.width - m) (heq : splitPairH n s = (l, r)) :
    (∀ a b, inRect n a b ↔ (inRect l a b ∨ inRect r a b)) ∧
    (∀ a b, ¬(inRect l a b ∧ inRect r a b)) ∧
    (m ≤ l.width ∧ m ≤ r.width ∧ l.height = n.height ∧ r.height = n.height) := by
  obtain ⟨hl, hr⟩ := Prod.ext_iff.mp heq
  subst hl; subst hr
  unfold splitPairH inRect
  refine ⟨fun a b => by dsimp; omega, fun a b => by dsimp; omega, ?_⟩
  dsimp
  omega

theorem splitPairV_tiles (n : Rect) (m s : ℤ) (l r : Rect) (hm : 0 ≤ m)
    (h1 : m ≤ s) (h2 : s ≤ n.height - m) (heq : splitPairV n s = (l, r)) :
    (∀ a b, inRect n a b ↔ (inRect l a b ∨ inRect r a b)) ∧
    (∀ a b, ¬(inRect l a b ∧ inRect r a b)) ∧
    (m ≤ l.height ∧ m ≤ r.height ∧ l.width = n.width ∧ r.width = n.width) := by
  obtain ⟨hl, hr⟩ := Prod.ext_iff.mp heq
  subst hl; subst hr
  unfold splitPairV inRect
  refine ⟨fun a b => by dsimp; omega, fun a b => by dsimp; omega, ?_⟩
  dsimp
  omega

/-- C10: whenever BSPNode.split succeeds, the two children are disjoint
rectangles whose cells tile the parent exactly, and each child's extent
along the split axis is at least min_size while the other extent equals
the parent's (stated for a nonnegative min_size, the regime of every
caller — the configured minimum sizes are positive). -/
theorem claim_C10_split_partition (n : Rect) (m : ℤ) (g : ℕ → ℕ) (l r : Rect)
    (hm : 0 ≤ m) (h : split n m g = some (l, r)) :
    (∀ a b, inRect n a b ↔ (inRect l a b ∨ inRect r a b)) ∧
    (∀ a b, ¬(inRect l a b ∧ inRect r a b)) ∧
    ((m ≤ l.width ∧ m ≤ r.width ∧ l.height = n.height ∧ r.height = n.height) ∨
     (m ≤ l.height ∧ m ≤ r.height ∧ l.width = n.width ∧ r.width = n.width)) := by
  unfold split at h
  split at h
  · exact absurd h (by simp)
  next hguard =>
    have hw : m ≤ n.width - m := by omega
    have hh : m ≤ n.height - m := by omega
    split at h
    · obtain ⟨hb1, hb2⟩ := randint_mem m (n.width - m) (g 0) hw
      obtain ⟨c1, c2, c3⟩ := splitPairH_tiles n m _ l r hm hb1 hb2 (Option.some.inj h)
      exact ⟨c1, c2, Or.inl c3⟩
    · split at h
      · obtain ⟨hb1, hb2⟩ := randint_mem m (n.height - m) (g 0) hh
        obtain ⟨c1, c2, c3⟩ := splitPairV_tiles n m _ l r hm hb1 hb2 (Option.some.inj h)
        exact ⟨c1, c2, Or.inr c3⟩
      · split at h
        · obtain ⟨hb1, hb2⟩ := randint_mem m (n.width - m) (g 1) hw
          obtain ⟨c1, c2, c3⟩ := splitPairH_tiles n m _ l r hm hb1 hb2 (Option.some.inj h)
          exact ⟨c1, c2, Or.inl c3⟩
        · obtain ⟨hb1, hb2⟩ := randint_mem m (n.height - m) (g 1) hh
          obtain ⟨c1, c2, c3⟩ := splitPairV_tiles n m _ l r hm hb1 hb2 (Option.some.inj h)
          exact ⟨c1, c2, Or.inr c3⟩

/-- Witness for C10 at the concrete node (0,0) of size 2 by 2 with
min_size 1 and the all-zero draw stream: the split succeeds with the
children (0,0,1,2) and (1,0,1,2) and the partition facts hold there. -/
theorem claim_C10_split_partition_witness :
    (∀ a b, inRect ⟨0, 0, 2, 2⟩ a b ↔
      (inRect ⟨0, 0, 1, 2⟩ a b ∨ inRect ⟨1, 0, 1, 2⟩ a b)) ∧
    (∀ a b, ¬(inRect ⟨0, 0, 1, 2⟩ a b ∧ inRect ⟨1, 0, 1, 2⟩ a b)) ∧
    (((1 : ℤ) ≤ (1 : ℤ) ∧ (1 : ℤ) ≤ (1 : ℤ) ∧ (2 : ℤ) = (2 : ℤ) ∧ (2 : ℤ) = (2 : ℤ)) ∨
     ((1 : ℤ) ≤ (2 : ℤ) ∧ (1 : ℤ) ≤ (2 : ℤ) ∧ (1 : ℤ) = (2 : ℤ) ∧ (1 : ℤ) = (2 : ℤ))) := by
  have h := claim_C10_split_partition ⟨0, 0, 2, 2⟩ 1 (fun _ => 0)
    ⟨0, 0, 1, 2⟩ ⟨1, 0, 1, 2⟩ (by norm_num) (by decide)
  exact h

theorem roomFromPadding_spec (n : Rect) (p : ℤ) (g : ℕ → ℕ)
    (hp1 : 1 ≤ p) (hp2 : p ≤ 2) :
    3 ≤ (roomFromPadding n p g).width ∧ 3 ≤ (roomFromPadding n p g).height ∧
    n.x + 1 ≤ (roomFromPadding n p g).x ∧ n.y + 1 ≤ (roomFromPadding n p g).y ∧
    (7 ≤ n.width → 7 ≤ n.height → containedWithMargin (roomFromPadding n p g) n) := by
  have hx : p > 1 → 0 ≤ randint 0 (p / 2) (g 1) ∧ randint 0 (p / 2) (g 1) ≤ p / 2 :=
    fun hgt => randint_mem 0 (p / 2) (g 1) (by omega)
  have hy : p > 1 → 0 ≤ randint 0 (p / 2) (g 2) ∧ randint 0 (p / 2) (g 2) ≤ p / 2 :=
    fun hgt => randint_mem 0 (p / 2) (g 2) (by omega)
  unfold roomFromPadding containedWithMargin
  dsimp
  by_cases hgt : p > 1
  · obtain ⟨hx1, hx2⟩ := hx hgt
    obtain ⟨hy1, hy2⟩ := hy hgt
    simp only [if_pos hgt]
    omega
  · simp only [if_neg hgt]
    omega

/-- C3 counterexample: on the 3-by-3 leaf at the origin, with draws
giving padding 1, create_room returns the room (1, 1, 3, 3), which
overflows the leaf on the right and on the bottom, so the room does not
lie strictly inside the leaf with margin at least 1. -/
theorem claim_C3_counterexample :
    create_room ⟨0, 0, 3, 3⟩ (fun _ => 0) = some ⟨1, 1, 3, 3⟩ ∧
    ¬ containedWithMargin ⟨1, 1, 3, 3⟩ ⟨0, 0, 3, 3⟩ := by
  constructor
  · decide
  · decide

/-- C3 amended: whenever create_room returns a room, both room dimensions
are at least 3 (the constant hardcoded in create_room; the configured
minimum room size is not consulted there), the room's top-left corner
keeps a margin of at least 1 from the leaf's top-left corner, and when
both leaf dimensions are at least 7 the room lies strictly inside the
leaf with margin at least 1 on every side. -/
theorem claim_C3_create_room_amended (n : Rect) (g : ℕ → ℕ) (r : Rect)
    (h : create_room n g = some r) :
    3 ≤ r.width ∧ 3 ≤ r.height ∧ n.x + 1 ≤ r.x ∧ n.y + 1 ≤ r.y ∧
    (7 ≤ n.width → 7 ≤ n.height → containedWithMargin r n) := by
  unfold create_room at h
  split at h
  · exact absurd h (by simp)
  · obtain ⟨hp1, hp2⟩ := randint_mem 1 2 (g 0) (by norm_num)
    have := roomFromPadding_spec n (randint 1 2 (g 0)) g hp1 hp2
    rw [Option.some.inj h] at this
    exact this

/-- Witness for C3 amended at the 7-by-7 leaf at the origin with the
all-zero draw stream: the returned room is (1, 1, 5, 5) and the amended
facts hold there. -/
theorem claim_C3_create_room_amended_witness :
    (3 : ℤ) ≤ 5 ∧ (3 : ℤ) ≤ 5 ∧ (0 : ℤ) + 1 ≤ 1 ∧ (0 : ℤ) + 1 ≤ 1 ∧
    ((7 : ℤ) ≤ 7 → (7 : ℤ) ≤ 7 → containedWithMargin ⟨1, 1, 5, 5⟩ ⟨0, 0, 7, 7⟩) := by
  exact claim_C3_create_room_amended ⟨0, 0, 7, 7⟩ (fun _ => 0) ⟨1, 1, 5, 5⟩ (by decide)

/-- C2: the determinism claim fails on the code. In
StructureGenerator.generate_buildings the per-building seed expression
collapses the valid fixed seed 0 to None (Python truthiness), so every
building generator of that call is constructed from system entropy
rather than from the caller's seed, while any nonzero seed propagates as
seed + i. Cave generation with seed 0 is unaffected
(np.random.RandomState(0) is a valid seeded state). -/
theorem claim_C2_seed_zero_unseeded :
    deriveBuildingSeed (some 0) 0 = none ∧
    deriveBuildingSeed (some 0) 1 = none ∧
    deriveBuildingSeed (some 42) 1 = some 43 := by decide

/-- C9: apply_cave_layout fails exactly when the supplied cave grid's
shape differs from the level's (height, width); the shape check precedes
every write, so the error case returns no modified state; on matching
shapes the current level's tiles become CAVE_WALL/CAVE_FLOOR and its
heightmap 0.8 for walls and 0.2 for floors, and every other component of
the map state (other levels' grids, level list, transitions) is
unchanged. -/
theorem claim_C9_apply_cave_layout (m : MapState) (ch cw : ℕ)
    (cave : ℕ → ℕ → Bool) :
    (¬(ch = m.height ∧ cw = m.width) →
      apply_cave_layout m ch cw cave =
        .error "Cave layout dimensions must match map dimensions") ∧
    (∀ m', apply_cave_layout m ch cw cave = .ok m' →
      (ch = m.height ∧ cw = m.width) ∧
      m'.width = m.width ∧ m'.height = m.height ∧
      m'.currentZ = m.currentZ ∧ m'.zLevels = m.zLevels ∧
      m'.transitions = m.transitions ∧
      (∀ y x, m'.tiles m.currentZ y x =
        (if cave y x then Terrain.CAVE_WALL else Terrain.CAVE_FLOOR)) ∧
      (∀ y x, m'.heightmap m.currentZ y x =
        (if cave y x then (8 : ℚ)/10 else (2 : ℚ)/10)) ∧
      (∀ z, z ≠ m.currentZ →
        (∀ y x, m'.tiles z y x = m.tiles z y x) ∧
        (∀ y x, m'.heightmap z y x = m.heightmap z y x))) := by
  unfold apply_cave_layout
  by_cases hsh : ch = m.height ∧ cw = m.width
  · rw [if_neg (by simpa using hsh)]
    refine ⟨fun hc => absurd hsh hc, fun m' hm' => ?_⟩
    obtain rfl := (Except.ok.inj hm').symm
    refine ⟨hsh, rfl, rfl, rfl, rfl, rfl, fun y x => by simp, fun y x => by simp,
      fun z hz => ⟨fun y x => by simp [hz], fun y x => by simp [hz]⟩⟩
  · rw [if_pos (by simpa using hsh)]
    exact ⟨fun _ => rfl, fun m' hm' => by cases hm'⟩

/-- Witness for C9 at a concrete 1-by-1 map: a 2-by-1 cave grid is
rejected with the dimension error, and applying the matching 1-by-1
all-wall grid rewrites the tile to CAVE_WALL and the height to 0.8. -/
theorem claim_C9_apply_cave_layout_witness :
    (apply_cave_layout
      ⟨1, 1, 0, [0], fun _ _ _ => .GRASS, fun _ _ _ => 0, fun _ _ => []⟩
      2 1 (fun _ _ => true) =
      .error "Cave layout dimensions must match map dimensions") ∧
    (∀ m', apply_cave_layout
      ⟨1, 1, 0, [0], fun _ _ _ => .GRASS, fun _ _ _ => 0, fun _ _ => []⟩
      1 1 (fun _ _ => true) = .ok m' →
      m'.tiles 0 0 0 = Terrain.CAVE_WALL ∧ m'.heightmap 0 0 0 = (8 : ℚ)/10) := by
  constructor
  · exact (claim_C9_apply_cave_layout
      ⟨1, 1, 0, [0], fun _ _ _ => .GRASS, fun _ _ _ => 0, fun _ _ => []⟩
      2 1 (fun _ _ => true)).1 (by decide)
  · intro m' hm'
    have h := (claim_C9_apply_cave_layout
      ⟨1, 1, 0, [0], fun _ _ _ => .GRASS, fun _ _ _ => 0, fun _ _ => []⟩
      1 1 (fun _ _ => true)).2 m' hm'
    exact ⟨by simpa using h.2.2.2.2.2.2.1 0 0, by simpa using h.2.2.2.2.2.2.2.1 0 0⟩

theorem add_level_transition_spec (m : MapState) (fz tz x y : ℤ)
    (hfz : fz ∈ m.zLevels) (htz : tz ∈ m.zLevels) :
    ∃ m', add_level_transition m fz tz x y = .ok m' ∧
      (x, y) ∈ m'.transitions fz tz ∧ (x, y) ∈ m'.transitions tz fz ∧
      (m'.transitions fz tz).getLast? = some (x, y) ∧
      (m'.transitions tz fz).getLast? = some (x, y) ∧
      m'.width = m.width ∧ m'.height = m.height ∧
      m'.currentZ = m.currentZ ∧ m'.zLevels = m.zLevels ∧ m'.tiles = m.tiles := by
  have hok : add_level_transition m fz tz x y = .ok { m with
      transitions := setTrans
        (setTrans m.transitions fz tz (m.transitions fz tz ++ [(x, y)])) tz fz
        ((setTrans m.transitions fz tz (m.transitions fz tz ++ [(x, y)])) tz fz
          ++ [(x, y)]) } := by
    unfold add_level_transition
    rw [if_neg (by simp [hfz, htz])]
  refine ⟨_, hok, ?_, ?_, ?_, ?_, rfl, rfl, rfl, rfl, rfl⟩ <;>
    by_cases hzz : fz = tz <;>
      simp [setTrans, hzz]

theorem mem_pushConn (acc : ℕ → List VertConn) (f : ℕ) (c0 : VertConn)
    (f' : ℕ) (c : VertConn) :
    c ∈ pushConn acc f c0 f' ↔ c ∈ acc f' ∨ (f' = f ∧ c = c0) := by
  unfold pushConn
  by_cases h : f' = f <;> simp [h]

theorem complementKind_involutive (s : Stair) :
    complementKind (complementKind s) = s := by cases s <;> rfl

theorem vcPair_fields (st : SType) (fr : ℕ → List Rect) (g : ℕ → ℕ)
    (f k : ℕ) :
    (vcPair st fr g f k).1.target_floor = f + 1 ∧
    (vcPair st fr g f k).2.target_floor = f ∧
    (vcPair st fr g f k).2.type = complementKind (vcPair st fr g f k).1.type ∧
    (vcPair st fr g f k).2.position = (vcPair st fr g f k).1.target_position ∧
    (vcPair st fr g f k).2.target_position = (vcPair st fr g f k).1.position := by
  unfold vcPair drawnStair
  by_cases hroll : (st = SType.STORAGE ∨ st = SType.WORKSHOP) ∧ g (k + 6) % 10 < 7 <;>
    simp [hroll, complementKind]

theorem reciprocalIn_push_pair (acc : ℕ → List VertConn) (f : ℕ)
    (up down : VertConn)
    (hup : up.target_floor = f + 1) (hdown : down.target_floor = f)
    (ht : down.type = complementKind up.type)
    (hp : down.position = up.target_position)
    (htp : down.target_position = up.position)
    (hacc : reciprocalIn acc) :
    reciprocalIn (pushConn (pushConn acc f up) (f + 1) down) := by
  intro f0 c hc
  rw [mem_pushConn] at hc
  rcases hc with hc | ⟨rfl, rfl⟩
  · rw [mem_pushConn] at hc
    rcases hc with hc | ⟨rfl, rfl⟩
    · obtain ⟨c', hc', h1, h2, h3, h4⟩ := hacc f0 c hc
      exact ⟨c', by rw [mem_pushConn, mem_pushConn]; exact Or.inl (Or.inl hc'),
        h1, h2, h3, h4⟩
    · refine ⟨down, ?_, ?_, ?_, ?_, ?_⟩
      · rw [mem_pushConn]
        exact Or.inr ⟨hup, rfl⟩
      · exact ht
      · exact hp
      · exact htp
      · exact hdown
  · refine ⟨up, ?_, ?_, ?_, ?_, ?_⟩
    · rw [mem_pushConn, mem_pushConn]
      exact Or.inl (Or.inr ⟨hdown, rfl⟩)
    · rw [ht, complementKind_involutive]
    · exact htp.symm
    · exact hp.symm
    · exact hup

theorem vcLoop_reciprocal (st : SType) (fr : ℕ → List Rect) (g : ℕ → ℕ)
    (l : List ℕ) (k : ℕ) (acc : ℕ → List VertConn)
    (hacc : reciprocalIn acc) : reciprocalIn (vcLoop st fr g l k acc) := by
  induction l generalizing k acc with
  | nil => simpa [vcLoop] using hacc
  | cons f rest ih =>
    rw [vcLoop]
    split
    · exact ih k acc hacc
    · obtain ⟨h1, h2, h3, h4, h5⟩ := vcPair_fields st fr g f k
      exact ih _ _ (reciprocalIn_push_pair acc f _ _ h1 h2 h3 h4 h5 hacc)

/-- C6: both reciprocity facts. First, whenever add_level_transition
succeeds on two existing levels, the coordinate pair (x, y) it appends
to the source level's entry for the target is also appended to the
target level's entry for the source (each entry's last element is
(x, y)); second, every vertical connection generated between adjacent
floors of a building has a reciprocal entry on the adjacent floor with
the complementary connector kind (ascend/descend swapped, stair stays
stair, ladder stays ladder) and the position and target-position fields
swapped. -/
theorem claim_C6_reciprocal_transitions :
    (∀ (m : MapState) (fz tz x y : ℤ), fz ∈ m.zLevels → tz ∈ m.zLevels →
      ∃ m', add_level_transition m fz tz x y = .ok m' ∧
        (x, y) ∈ m'.transitions fz tz ∧ (x, y) ∈ m'.transitions tz fz ∧
        (m'.transitions fz tz).getLast? = some (x, y) ∧
        (m'.transitions tz fz).getLast? = some (x, y)) ∧
    (∀ (st : SType) (fr : ℕ → List Rect) (floors : ℕ) (g : ℕ → ℕ),
      reciprocalIn (generate_vertical_connections st fr floors g)) := by
  constructor
  · intro m fz tz x y hfz htz
    obtain ⟨m', h1, h2, h3, h4, h5, _⟩ := add_level_transition_spec m fz tz x y hfz htz
    exact ⟨m', h1, h2, h3, h4, h5⟩
  · intro st fr floors g
    unfold generate_vertical_connections
    split
    · intro f c hc
      simp at hc
    · exact vcLoop_reciprocal st fr g _ 0 _ (fun f c hc => by simp at hc)

/-- Witness for C6: the transition-mirroring half applied to a concrete
two-level map at levels 0 and -1 and coordinates (2, 3), and the
vertical-connection half applied to a concrete two-floor building. -/
theorem claim_C6_reciprocal_transitions_witness :
    (∃ m', add_level_transition
        ⟨4, 4, 0, [0, -1], fun _ _ _ => .GRASS, fun _ _ _ => 0, fun _ _ => []⟩
        0 (-1) 2 3 = .ok m' ∧
      ((2 : ℤ), (3 : ℤ)) ∈ m'.transitions 0 (-1) ∧
      ((2 : ℤ), (3 : ℤ)) ∈ m'.transitions (-1) 0 ∧
      (m'.transitions 0 (-1)).getLast? = some (2, 3) ∧
      (m'.transitions (-1) 0).getLast? = some (2, 3)) ∧
    reciprocalIn (generate_vertical_connections SType.HOUSE
      (fun _ => [⟨0, 0, 5, 5⟩]) 2 (fun _ => 0)) := by
  constructor
  · exact claim_C6_reciprocal_transitions.1
      ⟨4, 4, 0, [0, -1], fun _ _ _ => .GRASS, fun _ _ _ => 0, fun _ _ => []⟩
      0 (-1) 2 3 (by decide) (by decide)
  · exact claim_C6_reciprocal_transitions.2 SType.HOUSE
      (fun _ => [⟨0, 0, 5, 5⟩]) 2 (fun _ => 0)

theorem mem_suitableList (m : MapState) (q : ℕ × ℕ) :
    q ∈ suitableList m ↔ q.1 < m.height ∧ q.2 < m.width ∧
      m.tiles m.currentZ q.1 q.2 ≠ .WATER ∧
      m.tiles m.currentZ q.1 q.2 ≠ .BEACH := by
  unfold suitableList
  simp only [List.mem_flatMap, List.mem_filterMap, List.mem_range]
  constructor
  · rintro ⟨y, hy, x, hx, heq⟩
    split at heq
    · rename_i hcond
      obtain rfl := (Option.some.inj heq).symm
      exact ⟨hy, hx, hcond.1, hcond.2⟩
    · cases heq
  · rintro ⟨h1, h2, h3, h4⟩
    exact ⟨q.1, h1, q.2, h2, by rw [if_pos ⟨h3, h4⟩]⟩

theorem suitableList_nil_iff (m : MapState) :
    suitableList m = [] ↔
    ∀ y < m.height, ∀ x < m.width,
      m.tiles m.currentZ y x = .WATER ∨ m.tiles m.currentZ y x = .BEACH := by
  rw [List.eq_nil_iff_forall_not_mem]
  constructor
  · intro h y hy x hx
    have := h (y, x)
    rw [mem_suitableList] at this
    by_contra hc
    push_neg at hc
    exact this ⟨hy, hx, hc.1, hc.2⟩
  · intro h q hq
    rw [mem_suitableList] at hq
    rcases h q.1 hq.1 q.2 hq.2.1 with hw | hb
    · exact hq.2.2.1 hw
    · exact hq.2.2.2 hb

theorem ensureUnderground_spec (m : MapState) (hcz : m.currentZ ∈ m.zLevels) :
    ∃ m2, ensureUnderground m = .ok m2 ∧
      (-1 : ℤ) ∈ m2.zLevels ∧ m2.currentZ = m.currentZ ∧
      m.currentZ ∈ m2.zLevels ∧
      (∀ y x, m2.tiles m.currentZ y x = m.tiles m.currentZ y x) ∧
      m2.width = m.width ∧ m2.height = m.height := by
  unfold ensureUnderground
  by_cases hm : (-1 : ℤ) ∈ m.zLevels
  · rw [if_pos hm]
    exact ⟨m, rfl, hm, rfl, hcz, fun y x => rfl, rfl, rfl⟩
  · rw [if_neg hm]
    have hne : m.currentZ ≠ -1 := fun h => hm (h ▸ hcz)
    unfold add_z_level
    rw [if_neg hm]
    refine ⟨_, rfl, ?_, rfl, ?_, ?_, rfl, rfl⟩
    · exact List.mem_cons_self _ _
    · exact List.mem_cons_of_mem _ hcz
    · intro y x
      simp [hne]

/-- C8: generate_cave_entrance fails with the explicit no-suitable-location
error exactly when every tile of the current level is water or beach;
otherwise (under the GameMap invariant that the current level is
registered) it succeeds and returns entrance coordinates (ex, ey) of a
tile that was neither water nor beach, which is now marked CAVE_ENTRANCE;
afterwards the underground level -1 exists (created if it was absent) and
the mirrored transition pair between the current level and level -1
carries (ex, ey) on both sides. -/
theorem claim_C8_generate_cave_entrance (m : MapState) (g : ℕ → ℕ)
    (hcz : m.currentZ ∈ m.zLevels) :
    ((∀ y < m.height, ∀ x < m.width,
        m.tiles m.currentZ y x = .WATER ∨ m.tiles m.currentZ y x = .BEACH) ↔
      generate_cave_entrance m g =
        .error "No suitable location for cave entrance") ∧
    (∀ m' ex ey, generate_cave_entrance m g = .ok (m', ex, ey) →
      ey < m.height ∧ ex < m.width ∧
      m.tiles m.currentZ ey ex ≠ .WATER ∧ m.tiles m.currentZ ey ex ≠ .BEACH ∧
      m'.tiles m.currentZ ey ex = .CAVE_ENTRANCE ∧
      (-1 : ℤ) ∈ m'.zLevels ∧ m'.currentZ = m.currentZ ∧
      ((ex : ℤ), (ey : ℤ)) ∈ m'.transitions m.currentZ (-1) ∧
      ((ex : ℤ), (ey : ℤ)) ∈ m'.transitions (-1) m.currentZ) := by
  by_cases hnil : suitableList m = []
  · have herr : generate_cave_entrance m g =
        .error "No suitable location for cave entrance" := by
      unfold generate_cave_entrance
      rw [if_pos (by rw [hnil]; rfl)]
    refine ⟨⟨fun _ => herr, fun _ => (suitableList_nil_iff m).mp hnil⟩, ?_⟩
    intro m' ex ey hok
    rw [herr] at hok
    cases hok
  · have hlpos : 0 < (suitableList m).length := List.length_pos.mpr hnil
    have hidx : g 0 % (suitableList m).length < (suitableList m).length :=
      Nat.mod_lt _ hlpos
    set e := (suitableList m).getD (g 0 % (suitableList m).length) (0, 0) with hedef
    have he : e ∈ suitableList m := by
      rw [hedef, List.getD_eq_getElem _ _ hidx]
      exact List.getElem_mem _
    obtain ⟨hey, hex, hw, hb⟩ := (mem_suitableList m e).mp he
    obtain ⟨m2, hm2, hm2u, hm2cz, hm2z, hm2t, hm2w, hm2h⟩ :=
      ensureUnderground_spec (markEntrance m e.1 e.2) hcz
    obtain ⟨m3, hm3, hm3a, hm3b, _, _, hm3w, hm3h, hm3cz, hm3z, hm3t⟩ :=
      add_level_transition_spec m2 m.currentZ (-1) (e.2 : ℤ) (e.1 : ℤ) hm2z hm2u
    have hrun : generate_cave_entrance m g = .ok (m3, e.2, e.1) := by
      unfold generate_cave_entrance
      rw [if_neg (by omega)]
      rw [← hedef]
      simp only [hm2, hm3]
    constructor
    · constructor
      · intro hall
        exact absurd ((suitableList_nil_iff m).mpr hall) hnil
      · intro herr
        rw [hrun] at herr
        cases herr
    · intro m' ex ey hok
      rw [hrun] at hok
      obtain ⟨h1, h2⟩ := Prod.ext_iff.mp (Except.ok.inj hok)
      obtain ⟨h3, h4⟩ := Prod.ext_iff.mp h2
      subst h1
      subst h3
      subst h4
      refine ⟨hey, hex, hw, hb, ?_, ?_, ?_, hm3a, hm3b⟩
      · have ht := hm2t e.1 e.2
        simp only [markEntrance] at ht
        rw [hm3t, ht]
        simp
      · rw [hm3z]
        exact hm2u
      · rw [hm3cz]
        exact hm2cz

/-- Witness for C8: on a 1-by-1 all-water map the entrance placement
fails with the explicit error; on a 1-by-1 all-grass map it does not
fail. -/
theorem claim_C8_generate_cave_entrance_witness :
    (generate_cave_entrance
      ⟨1, 1, 0, [0], fun _ _ _ => .WATER, fun _ _ _ => 0, fun _ _ => []⟩
      (fun _ => 0) = .error "No suitable location for cave entrance") ∧
    (generate_cave_entrance
      ⟨1, 1, 0, [0], fun _ _ _ => .GRASS, fun _ _ _ => 0, fun _ _ => []⟩
      (fun _ => 0) ≠ .error "No suitable location for cave entrance") := by
  constructor
  · exact (claim_C8_generate_cave_entrance
      ⟨1, 1, 0, [0], fun _ _ _ => .WATER, fun _ _ _ => 0, fun _ _ => []⟩
      (fun _ => 0) (by decide)).1.mp (by decide)
  · intro herr
    have hall := (claim_C8_generate_cave_entrance
      ⟨1, 1, 0, [0], fun _ _ _ => .GRASS, fun _ _ _ => 0, fun _ _ => []⟩
      (fun _ => 0) (by decide)).1.mpr herr
    exact absurd (hall 0 (by decide) 0 (by decide)) (by decide)

/-- C7: one automaton iteration implements exactly the stated rule. For
every cell: a border cell is forced to wall; an interior cell becomes a
wall when its Moore wall-neighbor count reaches the birth limit, becomes
floor when the count is below the death limit, and keeps its previous
value when the count lies between the two limits. Stated under
death_limit ≤ birth_limit, which the in-between case of the claim
presupposes (with an inverted ordering the birth and death conditions
overlap and the source's write order lets the death rule win). -/
theorem claim_C7_automata_rules (p : CaveParams) (hh ww : ℕ)
    (c : ℕ → ℕ → Bool) (y x : ℕ) (hdb : p.death_limit ≤ p.birth_limit) :
    ((y = 0 ∨ y = hh - 1 ∨ x = 0 ∨ x = ww - 1) →
      applyAutomataRules p hh ww c y x = true) ∧
    (¬(y = 0 ∨ y = hh - 1 ∨ x = 0 ∨ x = ww - 1) →
      (p.birth_limit ≤ neighborCount hh ww c y x →
        applyAutomataRules p hh ww c y x = true) ∧
      (neighborCount hh ww c y x < p.death_limit →
        applyAutomataRules p hh ww c y x = false) ∧
      (p.death_limit ≤ neighborCount hh ww c y x →
        neighborCount hh ww c y x < p.birth_limit →
        applyAutomataRules p hh ww c y x = c y x)) := by
  unfold applyAutomataRules
  constructor
  · intro hb
    rw [if_pos hb]
  · intro hb
    rw [if_neg hb]
    refine ⟨fun h1 => ?_, fun h2 => ?_, fun h3 h4 => ?_⟩
    · rw [if_neg (by omega), if_pos h1]
    · rw [if_pos h2]
    · rw [if_neg (by omega), if_neg (by omega)]

/-- Witness for C7 with the repository's default limits (birth 4,
death 3) on a 3-by-3 grid whose top row is wall: the border cell (0, 0)
becomes a wall and the center cell (1, 1), whose count 3 lies between
the limits, keeps its previous floor value. -/
theorem claim_C7_automata_rules_witness :
    applyAutomataRules ⟨45/100, 4, 3, 4⟩ 3 3
      (fun y _ => decide (y = 0)) 0 0 = true ∧
    applyAutomataRules ⟨45/100, 4, 3, 4⟩ 3 3
      (fun y _ => decide (y = 0)) 1 1 = decide ((1 : ℕ) = 0) := by
  constructor
  · exact (claim_C7_automata_rules ⟨45/100, 4, 3, 4⟩ 3 3
      (fun y _ => decide (y = 0)) 0 0 (by decide)).1
      (by decide)
  · exact ((claim_C7_automata_rules ⟨45/100, 4, 3, 4⟩ 3 3
      (fun y _ => decide (y = 0)) 1 1 (by decide)).2
      (by decide)).2.2 (by decide) (by decide)

theorem mem_gridVals (hh ww : ℕ) (f : ℕ → ℕ → ℚ) (y x : ℕ)
    (hy : y < hh) (hx : x < ww) : f y x ∈ gridVals hh ww f := by
  unfold gridVals
  rw [List.mem_flatMap]
  exact ⟨y, List.mem_range.mpr hy, List.mem_map.mpr ⟨x, List.mem_range.mpr hx, rfl⟩⟩

theorem foldr_min_le (l : List ℚ) (b v : ℚ) (hv : v ∈ l) :
    l.foldr min b ≤ v := by
  induction l with
  | nil => cases hv
  | cons a t ih =>
    rcases List.mem_cons.mp hv with rfl | h
    · exact min_le_left _ _
    · exact le_trans (min_le_right _ _) (ih h)

theorem le_foldr_max (l : List ℚ) (b v : ℚ) (hv : v ∈ l) :
    v ≤ l.foldr max b := by
  induction l with
  | nil => cases hv
  | cons a t ih =>
    rcases List.mem_cons.mp hv with rfl | h
    · exact le_max_left _ _
    · exact le_trans (ih h) (le_max_right _ _)

theorem gridMin_le (hh ww : ℕ) (f : ℕ → ℕ → ℚ) (y x : ℕ)
    (hy : y < hh) (hx : x < ww) : gridMin hh ww f ≤ f y x :=
  foldr_min_le _ _ _ (mem_gridVals hh ww f y x hy hx)

theorem le_gridMax (hh ww : ℕ) (f : ℕ → ℕ → ℚ) (y x : ℕ)
    (hy : y < hh) (hx : x < ww) : f y x ≤ gridMax hh ww f :=
  le_foldr_max _ _ _ (mem_gridVals hh ww f y x hy hx)

theorem newtonStep_two_gt_one (x : ℚ) (hx : 0 < x) : 1 < newtonStep 2 x := by
  unfold newtonStep
  have hdiv : 2 / x * x = 2 := div_mul_cancel₀ 2 (ne_of_gt hx)
  rw [lt_div_iff₀ (by norm_num : (0 : ℚ) < 2)]
  nlinarith [sq_nonneg (x - 1)]

theorem sqrtApprox_two_gt_one : 1 < sqrtApprox 2 := by
  unfold sqrtApprox
  have h0 : (0 : ℚ) < max 1 2 := by norm_num
  have h1 := newtonStep_two_gt_one _ h0
  have h2 := newtonStep_two_gt_one _ (lt_trans one_pos h1)
  have h3 := newtonStep_two_gt_one _ (lt_trans one_pos h2)
  have h4 := newtonStep_two_gt_one _ (lt_trans one_pos h3)
  exact newtonStep_two_gt_one _ (lt_trans one_pos h4)

/-- C5 counterexample: on a valid 1-by-1 grid the raw heightmap value is
(noise + 1) / 2 times the mask 1 - sqrt 2, which is negative for the
admissible noise value 0, and on the single-cell grid max equals min, so
the normalization leaves the grid unchanged: the heightmap produced by
generate_terrain holds a value below 0, outside [0.0, 1.0]. -/
theorem claim_C5_counterexample :
    generateTerrainHeightmap (fun _ _ => 0) 1 1 0 0 < 0 := by
  have hr : rawHeightmap (fun _ _ => 0) 1 1 0 0 = 1 / 2 * (1 - sqrtApprox 2) := by
    unfold rawHeightmap linspace
    norm_num
  have hmm : gridMin 1 1 (rawHeightmap (fun _ _ => 0) 1 1) =
      gridMax 1 1 (rawHeightmap (fun _ _ => 0) 1 1) := by
    unfold gridMin gridMax gridVals
    simp [List.range_succ]
  have hng : generateTerrainHeightmap (fun _ _ => 0) 1 1 0 0 =
      rawHeightmap (fun _ _ => 0) 1 1 0 0 := by
    unfold generateTerrainHeightmap normalizeHeightmap
    rw [if_neg (by rw [hmm]; exact lt_irrefl _)]
  rw [hng, hr]
  have := sqrtApprox_two_gt_one
  linarith

/-- C5 amended: the normalization step maps each value v to
(v - min) / (max - min) when max > min, placing every normalized value
in [0.0, 1.0], and leaves the grid unchanged when max == min; the
heightmap generate_terrain produces is exactly the normalization of its
raw masked-noise grid (and add_terrain_features likewise ends by
normalizing, map.py line 225), so after generation every value lies in
[0.0, 1.0] whenever the pre-normalization grid is not constant, while a
degenerate constant grid keeps its raw values, which can lie outside the
interval. -/
theorem claim_C5_normalization_amended (hh ww : ℕ) (f : ℕ → ℕ → ℚ) :
    (gridMin hh ww f < gridMax hh ww f →
      ∀ y, y < hh → ∀ x, x < ww →
        normalizeHeightmap hh ww f y x =
          (f y x - gridMin hh ww f) / (gridMax hh ww f - gridMin hh ww f) ∧
        0 ≤ normalizeHeightmap hh ww f y x ∧
        normalizeHeightmap hh ww f y x ≤ 1) ∧
    (gridMax hh ww f = gridMin hh ww f → normalizeHeightmap hh ww f = f) ∧
    (∀ noise, generateTerrainHeightmap noise ww hh =
      normalizeHeightmap hh ww (rawHeightmap noise ww hh)) := by
  refine ⟨?_, ?_, fun _ => rfl⟩
  · intro hlt y hy x hx
    have hmin := gridMin_le hh ww f y x hy hx
    have hmax := le_gridMax hh ww f y x hy hx
    have hpos : 0 < gridMax hh ww f - gridMin hh ww f := by linarith
    have heq : normalizeHeightmap hh ww f y x =
        (f y x - gridMin hh ww f) / (gridMax hh ww f - gridMin hh ww f) := by
      unfold normalizeHeightmap
      rw [if_pos hlt]
    refine ⟨heq, ?_, ?_⟩
    · rw [heq]
      exact div_nonneg (by linarith) (le_of_lt hpos)
    · rw [heq]
      rw [div_le_one hpos]
      linarith
  · intro he
    unfold normalizeHeightmap
    rw [if_neg (by rw [he]; exact lt_irrefl _)]

/-- Witness for C5 amended on the concrete 1-by-2 grid with values 0 and
1: the normalized value at (0, 0) is (0 - 0) / (1 - 0) and lies in
[0, 1]; and on the constant 1-by-1 grid with value 5 the normalization
is the identity. -/
theorem claim_C5_normalization_amended_witness :
    (normalizeHeightmap 1 2 (fun _ x => if x = 0 then 0 else 1) 0 0 =
        ((if (0 : ℕ) = 0 then (0 : ℚ) else 1) -
          gridMin 1 2 (fun _ x => if x = 0 then 0 else 1)) /
          (gridMax 1 2 (fun _ x => if x = 0 then 0 else 1) -
            gridMin 1 2 (fun _ x => if x = 0 then 0 else 1)) ∧
      0 ≤ normalizeHeightmap 1 2 (fun _ x => if x = 0 then 0 else 1) 0 0 ∧
      normalizeHeightmap 1 2 (fun _ x => if x = 0 then 0 else 1) 0 0 ≤ 1) ∧
    normalizeHeightmap 1 1 (fun _ _ => 5) = (fun _ _ => (5 : ℚ)) := by
  constructor
  · exact (claim_C5_normalization_amended 1 2
      (fun _ x => if x = 0 then 0 else 1)).1 (by decide) 0 (by decide) 0 (by decide)
  · exact (claim_C5_normalization_amended 1 1 (fun _ _ => 5)).2.1 (by decide)

theorem adj4_symm (p q : ℕ × ℕ) (h : adj4 p q) : adj4 q p := by
  unfold adj4 at h ⊢
  omega

theorem stepRel_symm (o : Finset (ℕ × ℕ)) : Symmetric (stepRel o) :=
  fun p q h => ⟨adj4_symm p q h.1, h.2.2, h.2.1⟩

theorem reach_refl (o : Finset (ℕ × ℕ)) (p : ℕ × ℕ) : Reach o p p :=
  Relation.ReflTransGen.refl

theorem reach_trans (o : Finset (ℕ × ℕ)) (p q r : ℕ × ℕ)
    (h1 : Reach o p q) (h2 : Reach o q r) : Reach o p r :=
  Relation.ReflTransGen.trans h1 h2

theorem reach_symm (o : Finset (ℕ × ℕ)) (p q : ℕ × ℕ)
    (h : Reach o p q) : Reach o q p :=
  Relation.ReflTransGen.symmetric (stepRel_symm o) h

theorem reach_mono (o o' : Finset (ℕ × ℕ)) (hsub : o ⊆ o') (p q : ℕ × ℕ)
    (h : Reach o p q) : Reach o' p q :=
  Relation.ReflTransGen.mono (fun a b hab => ⟨hab.1, hsub hab.2.1, hsub hab.2.2⟩) h

theorem reach_step (o : Finset (ℕ × ℕ)) (a b : ℕ × ℕ)
    (h : adj4 a b) (ha : a ∈ o) (hb : b ∈ o) : Reach o a b :=
  Relation.ReflTransGen.single ⟨h, ha, hb⟩

theorem reach_mem_right (o : Finset (ℕ × ℕ)) (p q : ℕ × ℕ)
    (hp : p ∈ o) (h : Reach o p q) : q ∈ o := by
  induction h with
  | refl => exact hp
  | tail _ hstep _ => exact hstep.2.2

theorem subset_grow (o s : Finset (ℕ × ℕ)) : s ⊆ grow o s :=
  Finset.subset_union_left

theorem grow_subset_of (o s : Finset (ℕ × ℕ)) (hs : s ⊆ o) : grow o s ⊆ o := by
  unfold grow
  exact Finset.union_subset hs (Finset.filter_subset _ _)

theorem grow_mono (o s t : Finset (ℕ × ℕ)) (hst : s ⊆ t) :
    grow o s ⊆ grow o t := by
  unfold grow
  intro q hq
  rcases Finset.mem_union.mp hq with h | h
  · exact Finset.mem_union_left _ (hst h)
  · rw [Finset.mem_filter] at h
    obtain ⟨hqo, r, hr, hadj⟩ := h
    exact Finset.mem_union_right _ (Finset.mem_filter.mpr ⟨hqo, r, hst hr, hadj⟩)

theorem fill_zero (o : Finset (ℕ × ℕ)) (p : ℕ × ℕ) : fill o p 0 = {p} := rfl

theorem fill_succ (o : Finset (ℕ × ℕ)) (p : ℕ × ℕ) (n : ℕ) :
    fill o p (n + 1) = grow o (fill o p n) :=
  Function.iterate_succ_apply' _ _ _

theorem fill_subset (o : Finset (ℕ × ℕ)) (p : ℕ × ℕ) (n : ℕ) (hp : p ∈ o) :
    fill o p n ⊆ o := by
  induction n with
  | zero => rw [fill_zero]; exact Finset.singleton_subset_iff.mpr hp
  | succ n ih => rw [fill_succ]; exact grow_subset_of _ _ ih

theorem fill_mono_succ (o : Finset (ℕ × ℕ)) (p : ℕ × ℕ) (n : ℕ) :
    fill o p n ⊆ fill o p (n + 1) := by
  rw [fill_succ]
  exact subset_grow _ _

theorem fill_mono (o : Finset (ℕ × ℕ)) (p : ℕ × ℕ) (m n : ℕ) (h : m ≤ n) :
    fill o p m ⊆ fill o p n := by
  induction h with
  | refl => exact Finset.Subset.refl _
  | step _ ih => exact Finset.Subset.trans ih (fill_mono_succ _ _ _)

theorem mem_fill_self (o : Finset (ℕ × ℕ)) (p : ℕ × ℕ) (n : ℕ) :
    p ∈ fill o p n :=
  fill_mono o p 0 n (Nat.zero_le n) (by rw [fill_zero]; exact Finset.mem_singleton_self p)

theorem fill_fixed_of (o : Finset (ℕ × ℕ)) (p : ℕ × ℕ) (j : ℕ)
    (hfix : grow o (fill o p j) = fill o p j) (n : ℕ) (hn : j ≤ n) :
    fill o p n = fill o p j := by
  obtain ⟨m, rfl⟩ := Nat.exists_eq_add_of_le hn
  induction m with
  | zero => rfl
  | succ m ih =>
    rw [show j + (m + 1) = (j + m) + 1 by ring, fill_succ,
      ih (Nat.le_add_right j m), hfix]

theorem fill_card_gt (o : Finset (ℕ × ℕ)) (p : ℕ × ℕ) (hp : p ∈ o) (k : ℕ)
    (h : ∀ j, j < k → grow o (fill o p j) ≠ fill o p j) :
    k < (fill o p k).card := by
  induction k with
  | zero =>
    rw [fill_zero]
    simp
  | succ k ih =>
    have hk := ih (fun j hj => h j (Nat.lt_succ_of_lt hj))
    have hne : fill o p (k + 1) ≠ fill o p k := by
      rw [fill_succ]
      exact h k (Nat.lt_succ_self k)
    have hssub : fill o p k ⊂ fill o p (k + 1) :=
      Finset.ssubset_iff_subset_ne.mpr ⟨fill_mono_succ o p k, fun he => hne he.symm⟩
    have := Finset.card_lt_card hssub
    omega

theorem exists_fill_fixed (o : Finset (ℕ × ℕ)) (p : ℕ × ℕ) (hp : p ∈ o) :
    ∃ j, j ≤ o.card ∧ grow o (fill o p j) = fill o p j := by
  by_contra hc
  push_neg at hc
  have h1 := fill_card_gt o p hp o.card (fun j hj => hc j (le_of_lt hj))
  have h2 : (fill o p o.card).card ≤ o.card :=
    Finset.card_le_card (fill_subset o p o.card hp)
  omega

theorem component_fixed (o : Finset (ℕ × ℕ)) (p : ℕ × ℕ) (hp : p ∈ o) :
    grow o (component o p) = component o p := by
  obtain ⟨j, hj, hfix⟩ := exists_fill_fixed o p hp
  unfold component
  rw [fill_fixed_of o p j hfix o.card hj, hfix]

theorem reach_of_mem_fill (o : Finset (ℕ × ℕ)) (p : ℕ × ℕ) (hp : p ∈ o)
    (n : ℕ) (q : ℕ × ℕ) (hq : q ∈ fill o p n) : Reach o p q := by
  induction n generalizing q with
  | zero =>
    rw [fill_zero] at hq
    obtain rfl := Finset.mem_singleton.mp hq
    exact reach_refl o q
  | succ n ih =>
    rw [fill_succ] at hq
    rcases Finset.mem_union.mp hq with h | h
    · exact ih q h
    · rw [Finset.mem_filter] at h
      obtain ⟨hqo, r, hr, hadj⟩ := h
      exact Relation.ReflTransGen.tail (ih r hr)
        ⟨hadj, fill_subset o p n hp hr, hqo⟩

theorem mem_component_self (o : Finset (ℕ × ℕ)) (p : ℕ × ℕ) :
    p ∈ component o p :=
  mem_fill_self o p o.card

theorem mem_component_of_reach (o : Finset (ℕ × ℕ)) (p q : ℕ × ℕ)
    (hp : p ∈ o) (h : Reach o p q) : q ∈ component o p := by
  induction h with
  | refl => exact mem_component_self o p
  | tail _ hstep ih =>
    rw [← component_fixed o p hp]
    unfold grow
    exact Finset.mem_union_right _ (Finset.mem_filter.mpr ⟨hstep.2.2, _, ih, hstep.1⟩)

theorem mem_component_iff (o : Finset (ℕ × ℕ)) (p q : ℕ × ℕ) (hp : p ∈ o) :
    q ∈ component o p ↔ Reach o p q :=
  ⟨reach_of_mem_fill o p hp o.card q, mem_component_of_reach o p q hp⟩

theorem component_subset (o : Finset (ℕ × ℕ)) (p : ℕ × ℕ) (hp : p ∈ o) :
    component o p ⊆ o :=
  fill_subset o p o.card hp

theorem mem_scanList (hh ww : ℕ) (q : ℕ × ℕ) :
    q ∈ scanList hh ww ↔ q.1 < hh ∧ q.2 < ww := by
  unfold scanList
  simp only [List.mem_flatMap, List.mem_map, List.mem_range]
  constructor
  · rintro ⟨y, hy, x, hx, rfl⟩
    exact ⟨hy, hx⟩
  · rintro ⟨h1, h2⟩
    exact ⟨q.1, h1, q.2, h2, rfl⟩

theorem mem_openCells (hh ww : ℕ) (c : ℕ → ℕ → Bool) (q : ℕ × ℕ) :
    q ∈ openCells hh ww c ↔ q.1 < hh ∧ q.2 < ww ∧ c q.1 q.2 = false := by
  unfold openCells cells
  simp only [Finset.mem_filter, Finset.mem_product, Finset.mem_range]
  tauto

theorem componentsAux_mem_shape (o : Finset (ℕ × ℕ)) (l : List (ℕ × ℕ)) :
    ∀ (acc : List (Finset (ℕ × ℕ))),
    (∀ K ∈ acc, ∃ r ∈ o, K = component o r) →
    ∀ K ∈ componentsAux o l acc, ∃ r ∈ o, K = component o r := by
  induction l with
  | nil =>
    intro acc hacc K hK
    simp only [componentsAux] at hK
    exact hacc K (List.mem_reverse.mp hK)
  | cons p rest ih =>
    intro acc hacc K hK
    simp only [componentsAux] at hK
    split at hK
    · rename_i hcond
      refine ih _ ?_ K hK
      intro K' hK'
      rcases List.mem_cons.mp hK' with rfl | h
      · exact ⟨p, hcond.1, rfl⟩
      · exact hacc K' h
    · exact ih acc hacc K hK

theorem componentsAux_cover (o : Finset (ℕ × ℕ)) (l : List (ℕ × ℕ)) :
    ∀ (acc : List (Finset (ℕ × ℕ))) (q : ℕ × ℕ), q ∈ o →
    (q ∈ l ∨ ∃ K ∈ acc, q ∈ K) →
    ∃ K ∈ componentsAux o l acc, q ∈ K := by
  induction l with
  | nil =>
    intro acc q _ h
    simp only [componentsAux]
    rcases h with h | ⟨K, hK, hqK⟩
    · cases h
    · exact ⟨K, List.mem_reverse.mpr hK, hqK⟩
  | cons p rest ih =>
    intro acc q hq h
    simp only [componentsAux]
    split
    · rename_i hcond
      apply ih _ q hq
      rcases h with h | ⟨K, hK, hqK⟩
      · rcases List.mem_cons.mp h with rfl | h2
        · exact Or.inr ⟨component o q, List.mem_cons_self _ _, mem_component_self o q⟩
        · exact Or.inl h2
      · exact Or.inr ⟨K, List.mem_cons_of_mem _ hK, hqK⟩
    · rename_i hcond
      apply ih _ q hq
      rcases h with h | hacc2
      · rcases List.mem_cons.mp h with rfl | h2
        · right
          by_contra hc
          push_neg at hc
          exact hcond ⟨hq, fun K hK => hc K hK⟩
        · exact Or.inl h2
      · exact Or.inr hacc2

theorem component_disjoint_of_not_mem (o : Finset (ℕ × ℕ)) (p r : ℕ × ℕ)
    (hp : p ∈ o) (hr : r ∈ o) (hnot : p ∉ component o r) :
    ∀ q, q ∈ component o p → q ∉ component o r := by
  intro q hq1 hq2
  have h1 : Reach o p q := (mem_component_iff o p q hp).mp hq1
  have h2 : Reach o r q := (mem_component_iff o r q hr).mp hq2
  exact hnot (mem_component_of_reach o r p hr
    (reach_trans o r q p h2 (reach_symm o p q h1)))

theorem componentsAux_pairwise (o : Finset (ℕ × ℕ)) (l : List (ℕ × ℕ)) :
    ∀ (acc : List (Finset (ℕ × ℕ))),
    (∀ K ∈ acc, ∃ r ∈ o, K = component o r) →
    acc.Pairwise (fun K K' => ∀ q, q ∈ K → q ∉ K') →
    (componentsAux o l acc).Pairwise (fun K K' => ∀ q, q ∈ K → q ∉ K') := by
  induction l with
  | nil =>
    intro acc _ hdis
    simp only [componentsAux]
    rw [List.pairwise_reverse]
    exact hdis.imp fun h q hq hq' => h q hq' hq
  | cons p rest ih =>
    intro acc hshape hdis
    simp only [componentsAux]
    split
    · rename_i hcond
      refine ih _ ?_ ?_
      · intro K' hK'
        rcases List.mem_cons.mp hK' with rfl | h
        · exact ⟨p, hcond.1, rfl⟩
        · exact hshape K' h
      · rw [List.pairwise_cons]
        refine ⟨?_, hdis⟩
        intro K hK q hq1 hq2
        obtain ⟨r, hro, rfl⟩ := hshape K hK
        exact component_disjoint_of_not_mem o p r hcond.1 hro
          (hcond.2 _ hK) q hq1 hq2
    · exact ih acc hshape hdis

theorem componentsOf_shape (hh ww : ℕ) (c : ℕ → ℕ → Bool) :
    ∀ K ∈ componentsOf hh ww c,
      ∃ r ∈ openCells hh ww c, K = component (openCells hh ww c) r :=
  componentsAux_mem_shape _ _ [] (by simp)

theorem componentsOf_cover (hh ww : ℕ) (c : ℕ → ℕ → Bool) (q : ℕ × ℕ)
    (hq : q ∈ openCells hh ww c) : ∃ K ∈ componentsOf hh ww c, q ∈ K := by
  apply componentsAux_cover _ _ _ q hq
  left
  rw [mem_scanList]
  have h := (mem_openCells hh ww c q).mp hq
  exact ⟨h.1, h.2.1⟩

theorem componentsOf_pairwise (hh ww : ℕ) (c : ℕ → ℕ → Bool) :
    (componentsOf hh ww c).Pairwise (fun K K' => ∀ q, q ∈ K → q ∉ K') :=
  componentsAux_pairwise _ _ [] (by simp) List.Pairwise.nil

theorem argmaxSizes_lt_length (l : List (Finset (ℕ × ℕ))) (hl : l ≠ []) :
    argmaxSizes l < l.length := by
  unfold argmaxSizes
  have key : ∀ (r : List ℕ) (b : ℕ), b < l.length →
      r.foldl (fun best i =>
        if (l.getD best ∅).card < (l.getD i ∅).card then i else best) b <
        l.length ∨ (∃ i ∈ r, ¬ i < l.length) := by
    intro r
    induction r with
    | nil => intro b hb; exact Or.inl hb
    | cons i t ih =>
      intro b hb
      by_cases hi : i < l.length
      · simp only [List.foldl_cons]
        rcases ih (if (l.getD b ∅).card < (l.getD i ∅).card then i else b)
          (by split <;> assumption) with h | ⟨j, hj, hjl⟩
        · exact Or.inl h
        · exact Or.inr ⟨j, List.mem_cons_of_mem _ hj, hjl⟩
      · exact Or.inr ⟨i, List.mem_cons_self _ _, hi⟩
  rcases key (List.range l.length) 0 (List.length_pos.mpr hl) with h | ⟨i, hi, hil⟩
  · exact h
  · exact absurd (List.mem_range.mp hi) hil

theorem getD_mem_of_lt (l : List (Finset (ℕ × ℕ))) (i : ℕ) (d : Finset (ℕ × ℕ))
    (h : i < l.length) : l.getD i d ∈ l := by
  rw [List.getD_eq_getElem _ _ h]
  exact List.getElem_mem _

theorem mem_pointsList (hh ww : ℕ) (K : Finset (ℕ × ℕ)) (q : ℕ × ℕ) :
    q ∈ pointsList hh ww K ↔ q.1 < hh ∧ q.2 < ww ∧ q ∈ K := by
  unfold pointsList
  rw [List.mem_filter, mem_scanList]
  simp only [decide_eq_true_eq]
  tauto

theorem pointsList_ne_nil (hh ww : ℕ) (K : Finset (ℕ × ℕ)) (q : ℕ × ℕ)
    (hq : q ∈ K) (h1 : q.1 < hh) (h2 : q.2 < ww) :
    pointsList hh ww K ≠ [] := by
  intro h
  have hmem : q ∈ pointsList hh ww K := (mem_pointsList hh ww K q).mpr ⟨h1, h2, hq⟩
  rw [h] at hmem
  cases hmem

theorem samplePoints_mem (pts : List (ℕ × ℕ)) (n : ℕ) (g : ℕ → ℕ) (k : ℕ)
    (hpts : pts ≠ []) (s : ℕ × ℕ) (hs : s ∈ samplePoints pts n g k) :
    s ∈ pts := by
  unfold samplePoints at hs
  rw [List.mem_map] at hs
  obtain ⟨i, _, rfl⟩ := hs
  have hlen : 0 < pts.length := List.length_pos.mpr hpts
  have hlt : g (k + i) % pts.length < pts.length := Nat.mod_lt _ hlen
  rw [List.getD_eq_getElem _ _ hlt]
  exact List.getElem_mem _

theorem samplePoints_ne_nil (pts : List (ℕ × ℕ)) (n : ℕ) (g : ℕ → ℕ) (k : ℕ)
    (hn : n ≠ 0) : samplePoints pts n g k ≠ [] := by
  unfold samplePoints
  intro h
  rw [List.map_eq_nil_iff, List.range_eq_nil] at h
  exact hn h

theorem candidates_mem (srcs tgt : List (ℕ × ℕ)) (nt : ℕ) (g : ℕ → ℕ) (k : ℕ)
    (htgt : tgt ≠ []) (pq : (ℕ × ℕ) × (ℕ × ℕ))
    (hpq : pq ∈ candidates srcs tgt nt g k) :
    pq.1 ∈ srcs ∧ pq.2 ∈ tgt := by
  unfold candidates at hpq
  rw [List.mem_flatMap] at hpq
  obtain ⟨i, hi, hmem⟩ := hpq
  rw [List.mem_map] at hmem
  obtain ⟨qq, hqq, rfl⟩ := hmem
  constructor
  · have hlt : i < srcs.length := List.mem_range.mp hi
    rw [List.getD_eq_getElem _ _ hlt]
    exact List.getElem_mem _
  · exact samplePoints_mem tgt nt g _ htgt qq hqq

theorem candidates_ne_nil (srcs tgt : List (ℕ × ℕ)) (nt : ℕ) (g : ℕ → ℕ)
    (k : ℕ) (hs : srcs ≠ []) (hnt : nt ≠ 0) :
    candidates srcs tgt nt g k ≠ [] := by
  unfold candidates
  intro h
  rw [List.flatMap_eq_nil_iff] at h
  have h0 : 0 ∈ List.range srcs.length :=
    List.mem_range.mpr (List.length_pos.mpr hs)
  have := h _ h0
  rw [List.map_eq_nil_iff] at this
  exact samplePoints_ne_nil tgt nt g _ hnt this

theorem candidates_nt_zero (srcs tgt : List (ℕ × ℕ)) (g : ℕ → ℕ) (k : ℕ) :
    candidates srcs tgt 0 g k = [] := by
  unfold candidates
  apply List.flatMap_eq_nil_iff.mpr
  intro i _
  rfl

theorem scanMin_foldl_mem (cands : List ((ℕ × ℕ) × (ℕ × ℕ))) :
    ∀ (b : Option ((ℕ × ℕ) × (ℕ × ℕ))) (pq : (ℕ × ℕ) × (ℕ × ℕ)),
    cands.foldl betterPair b = some pq →
    b = some pq ∨ pq ∈ cands := by
  induction cands with
  | nil => intro b pq h; exact Or.inl h
  | cons a t ih =>
    intro b pq h
    simp only [List.foldl_cons] at h
    rcases ih _ pq h with h2 | h2
    · cases b with
      | none =>
        obtain rfl := Option.some.inj h2
        exact Or.inr (List.mem_cons_self _ _)
      | some bb =>
        rw [show betterPair (some bb) a =
          (if manhattan a.1 a.2 < manhattan bb.1 bb.2 then some a else some bb)
          from rfl] at h2
        by_cases hlt : manhattan a.1 a.2 < manhattan bb.1 bb.2
        · rw [if_pos hlt] at h2
          obtain rfl := Option.some.inj h2
          exact Or.inr (List.mem_cons_self _ _)
        · rw [if_neg hlt] at h2
          exact Or.inl h2
    · exact Or.inr (List.mem_cons_of_mem _ h2)

theorem scanMin_mem (cands : List ((ℕ × ℕ) × (ℕ × ℕ)))
    (pq : (ℕ × ℕ) × (ℕ × ℕ)) (h : scanMin cands = some pq) : pq ∈ cands := by
  rcases scanMin_foldl_mem cands none pq h with h2 | h2
  · cases h2
  · exact h2

theorem scanMin_foldl_some (cands : List ((ℕ × ℕ) × (ℕ × ℕ))) :
    ∀ (b : (ℕ × ℕ) × (ℕ × ℕ)),
    ∃ pq, cands.foldl betterPair (some b) = some pq := by
  induction cands with
  | nil => intro b; exact ⟨b, rfl⟩
  | cons a t ih =>
    intro b
    simp only [List.foldl_cons]
    rw [show betterPair (some b) a =
      (if manhattan a.1 a.2 < manhattan b.1 b.2 then some a else some b) from rfl]
    by_cases hlt : manhattan a.1 a.2 < manhattan b.1 b.2
    · rw [if_pos hlt]
      exact ih a
    · rw [if_neg hlt]
      exact ih b

theorem scanMin_some (cands : List ((ℕ × ℕ) × (ℕ × ℕ))) (h : cands ≠ []) :
    ∃ pq, scanMin cands = some pq := by
  match cands, h with
  | a :: t, _ =>
    unfold scanMin
    simp only [List.foldl_cons]
    exact scanMin_foldl_some t a

theorem mem_cells (hh ww : ℕ) (q : ℕ × ℕ) :
    q ∈ cells hh ww ↔ q.1 < hh ∧ q.2 < ww := by
  unfold cells
  simp [Finset.mem_product]

theorem mem_tunnelCells (p q t : ℕ × ℕ) :
    t ∈ tunnelCells p q ↔
      (t.1 = p.1 ∧ min p.2 q.2 ≤ t.2 ∧ t.2 ≤ max p.2 q.2) ∨
      (t.2 = q.2 ∧ min p.1 q.1 ≤ t.1 ∧ t.1 ≤ max p.1 q.1) := by
  unfold tunnelCells
  rw [List.mem_append]
  simp only [List.mem_map, List.mem_range'_1]
  constructor
  · rintro (⟨s, hs, rfl⟩ | ⟨s, hs, rfl⟩)
    · exact Or.inl ⟨rfl, by omega, by omega⟩
    · exact Or.inr ⟨rfl, by omega, by omega⟩
  · rintro (⟨h1, h2, h3⟩ | ⟨h1, h2, h3⟩)
    · exact Or.inl ⟨t.2, by omega, by rw [← h1]⟩
    · exact Or.inr ⟨t.1, by omega, by rw [← h1]⟩

theorem tunnelCells_subset_cells (hh ww : ℕ) (p q : ℕ × ℕ)
    (hp : p ∈ cells hh ww) (hq : q ∈ cells hh ww) :
    ∀ t ∈ tunnelCells p q, t ∈ cells hh ww := by
  intro t ht
  rw [mem_tunnelCells] at ht
  rw [mem_cells] at hp hq ⊢
  rcases ht with ⟨h1, h2, h3⟩ | ⟨h1, h2, h3⟩ <;> omega

theorem reach_horiz (o : Finset (ℕ × ℕ)) (y a : ℕ) :
    ∀ b, a ≤ b → (∀ x, a ≤ x → x ≤ b → (y, x) ∈ o) → Reach o (y, a) (y, b) := by
  intro b
  induction b with
  | zero =>
    intro hab _
    obtain rfl : a = 0 := Nat.le_zero.mp hab
    exact reach_refl _ _
  | succ n ih =>
    intro hab h
    rcases Nat.lt_or_ge a (n + 1) with hlt | hge
    · have han : a ≤ n := Nat.lt_succ_iff.mp hlt
      refine Relation.ReflTransGen.tail
        (ih han (fun x hx1 hx2 => h x hx1 (Nat.le_succ_of_le hx2))) ?_
      refine ⟨?_, h n han (Nat.le_succ n), h (n + 1) (Nat.le_succ_of_le han) (le_refl _)⟩
      unfold adj4
      left
      exact ⟨rfl, Or.inl rfl⟩
    · obtain rfl : a = n + 1 := le_antisymm hab hge
      exact reach_refl _ _

theorem reach_vert (o : Finset (ℕ × ℕ)) (x a : ℕ) :
    ∀ b, a ≤ b → (∀ y, a ≤ y → y ≤ b → (y, x) ∈ o) → Reach o (a, x) (b, x) := by
  intro b
  induction b with
  | zero =>
    intro hab _
    obtain rfl : a = 0 := Nat.le_zero.mp hab
    exact reach_refl _ _
  | succ n ih =>
    intro hab h
    rcases Nat.lt_or_ge a (n + 1) with hlt | hge
    · have han : a ≤ n := Nat.lt_succ_iff.mp hlt
      refine Relation.ReflTransGen.tail
        (ih han (fun yy hy1 hy2 => h yy hy1 (Nat.le_succ_of_le hy2))) ?_
      refine ⟨?_, h n han (Nat.le_succ n), h (n + 1) (Nat.le_succ_of_le han) (le_refl _)⟩
      unfold adj4
      right
      exact ⟨rfl, Or.inl rfl⟩
    · obtain rfl : a = n + 1 := le_antisymm hab hge
      exact reach_refl _ _

theorem reach_horiz_any (o : Finset (ℕ × ℕ)) (y a b : ℕ)
    (h : ∀ x, min a b ≤ x → x ≤ max a b → (y, x) ∈ o) :
    Reach o (y, a) (y, b) := by
  rcases Nat.le_total a b with hab | hba
  · exact reach_horiz o y a b hab (fun x h1 h2 => h x (by omega) (by omega))
  · exact reach_symm _ _ _
      (reach_horiz o y b a hba (fun x h1 h2 => h x (by omega) (by omega)))

theorem reach_vert_any (o : Finset (ℕ × ℕ)) (x a b : ℕ)
    (h : ∀ y, min a b ≤ y → y ≤ max a b → (y, x) ∈ o) :
    Reach o (a, x) (b, x) := by
  rcases Nat.le_total a b with hab | hba
  · exact reach_vert o x a b hab (fun yy h1 h2 => h yy (by omega) (by omega))
  · exact reach_symm _ _ _
      (reach_vert o x b a hba (fun yy h1 h2 => h yy (by omega) (by omega)))

theorem start_mem_tunnelCells (p q : ℕ × ℕ) : p ∈ tunnelCells p q := by
  rw [mem_tunnelCells]
  exact Or.inl ⟨rfl, by omega, by omega⟩

theorem target_mem_tunnelCells (p q : ℕ × ℕ) : q ∈ tunnelCells p q := by
  rw [mem_tunnelCells]
  exact Or.inr ⟨rfl, by omega, by omega⟩

theorem bend_mem_tunnelCells (p q : ℕ × ℕ) : (p.1, q.2) ∈ tunnelCells p q := by
  rw [mem_tunnelCells]
  exact Or.inl ⟨rfl, by omega, by omega⟩

theorem tunnel_reach_start (p q : ℕ × ℕ) (o : Finset (ℕ × ℕ))
    (hT : ∀ s ∈ tunnelCells p q, s ∈ o) :
    ∀ t ∈ tunnelCells p q, Reach o t p := by
  intro t ht
  rw [mem_tunnelCells] at ht
  rcases ht with ⟨h1, h2, h3⟩ | ⟨h1, h2, h3⟩
  · obtain ⟨t1, t2⟩ := t
    obtain rfl : t1 = p.1 := h1
    apply reach_horiz_any
    intro x hx1 hx2
    apply hT
    rw [mem_tunnelCells]
    exact Or.inl ⟨rfl, by omega, by omega⟩
  · obtain ⟨t1, t2⟩ := t
    obtain rfl : t2 = q.2 := h1
    have hstep1 : Reach o (t1, q.2) (p.1, q.2) := by
      apply reach_vert_any
      intro yy hy1 hy2
      apply hT
      rw [mem_tunnelCells]
      exact Or.inr ⟨rfl, by omega, by omega⟩
    have hstep2 : Reach o (p.1, q.2) (p.1, p.2) := by
      apply reach_horiz_any
      intro x hx1 hx2
      apply hT
      rw [mem_tunnelCells]
      exact Or.inl ⟨rfl, by omega, by omega⟩
    exact reach_trans _ _ _ _ hstep1 hstep2

theorem tunnel_reach_target (p q : ℕ × ℕ) (o : Finset (ℕ × ℕ))
    (hT : ∀ s ∈ tunnelCells p q, s ∈ o) : Reach o p q := by
  have h1 : Reach o (p.1, p.2) (p.1, q.2) := by
    apply reach_horiz_any
    intro x hx1 hx2
    apply hT
    rw [mem_tunnelCells]
    exact Or.inl ⟨rfl, by omega, by omega⟩
  have h2 : Reach o (p.1, q.2) (q.1, q.2) := by
    apply reach_vert_any
    intro yy hy1 hy2
    apply hT
    rw [mem_tunnelCells]
    exact Or.inr ⟨rfl, by omega, by omega⟩
  exact reach_trans _ _ _ _ h1 h2

theorem mem_openCells_carve (hh ww : ℕ) (pts : List (ℕ × ℕ))
    (c : ℕ → ℕ → Bool) (q : ℕ × ℕ) :
    q ∈ openCells hh ww (fun y x => if carveCell hh ww pts y x then false else c y x) ↔
      (q.1 < hh ∧ q.2 < ww) ∧
      (carveCell hh ww pts q.1 q.2 ∨ q ∈ openCells hh ww c) := by
  rw [mem_openCells, mem_openCells]
  by_cases hc : carveCell hh ww pts q.1 q.2 <;> simp [hc] <;> tauto

set_option maxHeartbeats 1600000 in
theorem tunnel_corner_neighbor (hh ww : ℕ) (p q t : ℕ × ℕ)
    (hp : p ∈ cells hh ww) (hq : q ∈ cells hh ww) (hpq : p ≠ q)
    (ht : t ∈ tunnelCells p q) (y x : ℕ)
    (hdy : Nat.dist t.1 y = 1) (hdx : Nat.dist t.2 x = 1)
    (hyi : 0 < y) (hyi2 : y < hh - 1) (hxi : 0 < x) (hxi2 : x < ww - 1)
    (htb1 : t.1 = 0 ∨ t.1 = hh - 1) (htb2 : t.2 = 0 ∨ t.2 = ww - 1) :
    (t.1, x) ∈ tunnelCells p q ∨ (y, t.2) ∈ tunnelCells p q := by
  have hpq2 : p.1 ≠ q.1 ∨ p.2 ≠ q.2 := by
    by_contra hcon
    push_neg at hcon
    exact hpq (Prod.ext hcon.1 hcon.2)
  rw [mem_tunnelCells] at ht
  rw [mem_cells] at hp hq
  rw [mem_tunnelCells, mem_tunnelCells]
  simp only [Nat.dist] at hdy hdx
  rcases htb1 with h1 | h1 <;> rcases htb2 with h2 | h2 <;>
    rcases ht with ⟨he, hl, hr⟩ | ⟨he, hl, hr⟩ <;>
      rcases hpq2 with hne | hne <;>
        omega

theorem carve_reach (hh ww : ℕ) (p q : ℕ × ℕ) (o : Finset (ℕ × ℕ))
    (hp : p ∈ cells hh ww) (hq : q ∈ cells hh ww) (hpq : p ≠ q)
    (hT : ∀ s ∈ tunnelCells p q, s ∈ o)
    (hB : ∀ y x, carveCell hh ww (tunnelCells p q) y x → y < hh → x < ww →
      (y, x) ∈ o)
    (y x : ℕ) (hc : carveCell hh ww (tunnelCells p q) y x)
    (hy : y < hh) (hx : x < ww) :
    Reach o (y, x) p := by
  rcases hc with htun | ⟨t, htm, hd1, hd2, hyi, hyi2, hxi, hxi2⟩
  · exact tunnel_reach_start p q o hT (y, x) htun
  · have hto : t ∈ o := hT t htm
    have htc : t ∈ cells hh ww := tunnelCells_subset_cells hh ww p q hp hq t htm
    rw [mem_cells] at htc
    have hbo : (y, x) ∈ o :=
      hB y x (Or.inr ⟨t, htm, hd1, hd2, hyi, hyi2, hxi, hxi2⟩) hy hx
    have hreach_t : Reach o (y, x) t ∨
        (∃ t', t' ∈ tunnelCells p q ∧ Reach o (y, x) t') := by
      by_cases hcy : t.1 = y
      · by_cases hcx : t.2 = x
        · left
          obtain ⟨t1, t2⟩ := t
          obtain rfl : t1 = y := hcy
          obtain rfl : t2 = x := hcx
          exact reach_refl _ _
        · left
          have hdx1 : Nat.dist t.2 x = 1 := by
            simp only [Nat.dist] at hd2 ⊢
            omega
          refine reach_step o (y, x) t ?_ hbo hto
          unfold adj4
          obtain ⟨t1, t2⟩ := t
          obtain rfl : t1 = y := hcy
          simp only [Nat.dist] at hdx1
          left
          constructor
          · rfl
          · omega
      · by_cases hcx : t.2 = x
        · left
          refine reach_step o (y, x) t ?_ hbo hto
          unfold adj4
          obtain ⟨t1, t2⟩ := t
          obtain rfl : t2 = x := hcx
          simp only [Nat.dist] at hd1
          right
          constructor
          · rfl
          · omega
        · -- diagonal buffer cell
          have hdy1 : Nat.dist t.1 y = 1 := by
            simp only [Nat.dist] at hd1 ⊢
            omega
          have hdx1 : Nat.dist t.2 x = 1 := by
            simp only [Nat.dist] at hd2 ⊢
            omega
          by_cases hn1 : 0 < t.2 ∧ t.2 < ww - 1
          · -- the cell (y, t.2) is itself buffered, walk through it
            have hmid : (y, t.2) ∈ o := by
              apply hB y t.2 (Or.inr ⟨t, htm, hd1, by simp [Nat.dist], hyi, hyi2,
                hn1.1, hn1.2⟩) hy htc.2
            left
            refine reach_trans o (y, x) (y, t.2) t ?_ ?_
            · refine reach_step o _ _ ?_ hbo hmid
              unfold adj4
              simp only [Nat.dist] at hdx1
              left
              exact ⟨rfl, by omega⟩
            · refine reach_step o _ _ ?_ hmid hto
              unfold adj4
              simp only [Nat.dist] at hdy1
              right
              exact ⟨rfl, by omega⟩
          · by_cases hn2 : 0 < t.1 ∧ t.1 < hh - 1
            · have hmid : (t.1, x) ∈ o := by
                apply hB t.1 x (Or.inr ⟨t, htm, by simp [Nat.dist], hd2, hn2.1,
                  hn2.2, hxi, hxi2⟩) htc.1 hx
              left
              refine reach_trans o (y, x) (t.1, x) t ?_ ?_
              · refine reach_step o _ _ ?_ hbo hmid
                unfold adj4
                simp only [Nat.dist] at hdy1
                right
                exact ⟨rfl, by omega⟩
              · refine reach_step o _ _ ?_ hmid hto
                unfold adj4
                simp only [Nat.dist] at hdx1
                left
                exact ⟨rfl, by omega⟩
            · -- t sits in a grid corner
              have htb1 : t.1 = 0 ∨ t.1 = hh - 1 := by omega
              have htb2 : t.2 = 0 ∨ t.2 = ww - 1 := by omega
              rcases tunnel_corner_neighbor hh ww p q t hp hq hpq htm y x hdy1
                hdx1 hyi hyi2 hxi hxi2 htb1 htb2 with hc1 | hc2
              · right
                refine ⟨(t.1, x), hc1, ?_⟩
                refine reach_step o _ _ ?_ hbo (hT _ hc1)
                unfold adj4
                simp only [Nat.dist] at hdy1
                right
                exact ⟨rfl, by omega⟩
              · right
                refine ⟨(y, t.2), hc2, ?_⟩
                refine reach_step o _ _ ?_ hbo (hT _ hc2)
                unfold adj4
                simp only [Nat.dist] at hdx1
                left
                exact ⟨rfl, by omega⟩
    rcases hreach_t with h | ⟨t', ht', h⟩
    · exact reach_trans _ _ _ _ h (tunnel_reach_start p q o hT t htm)
    · exact reach_trans _ _ _ _ h (tunnel_reach_start p q o hT t' ht')

theorem processRegions_open_mono (hh ww li : ℕ) (largestPts : List (ℕ × ℕ))
    (g : ℕ → ℕ) :
    ∀ (lst : List (ℕ × Finset (ℕ × ℕ))) (k : ℕ) (cc : ℕ → ℕ → Bool),
    openCells hh ww cc ⊆
      openCells hh ww (processRegions hh ww li largestPts g lst k cc) := by
  intro lst
  induction lst with
  | nil =>
    intro k cc
    simp only [processRegions]
    exact Finset.Subset.refl _
  | cons iK rest ih =>
    intro k cc
    obtain ⟨i, K⟩ := iK
    simp only [processRegions]
    split
    · exact ih k cc
    · split
      · exact ih k cc
      · split
        · exact ih _ cc
        · refine Finset.Subset.trans ?_ (ih _ _)
          intro q hq
          rw [mem_openCells_carve]
          rw [mem_openCells] at hq
          exact ⟨⟨hq.1, hq.2.1⟩, Or.inr ((mem_openCells _ _ _ _).mpr hq)⟩

theorem openCells_subset_cells (hh ww : ℕ) (c : ℕ → ℕ → Bool) :
    openCells hh ww c ⊆ cells hh ww :=
  Finset.filter_subset _ _

theorem processRegions_reach (hh ww : ℕ) (o : Finset (ℕ × ℕ)) (li : ℕ)
    (largestPts : List (ℕ × ℕ)) (anchor : ℕ × ℕ) (g : ℕ → ℕ)
    (hoc : o ⊆ cells hh ww) (hanchor : anchor ∈ o)
    (hLnil : largestPts ≠ [])
    (hLmem : ∀ s ∈ largestPts, s ∈ o ∧ Reach o s anchor) :
    ∀ (lst : List (ℕ × Finset (ℕ × ℕ))) (k : ℕ) (cc : ℕ → ℕ → Bool),
    (∀ iK ∈ lst, iK.1 ≠ li →
      iK.2 ⊆ o ∧ (∀ a b, a ∈ iK.2 → b ∈ iK.2 → Reach o a b) ∧
      (∀ a ∈ iK.2, a ∉ largestPts)) →
    o ⊆ openCells hh ww cc →
    (∀ cell ∈ openCells hh ww cc,
      (∃ iK ∈ lst, iK.1 ≠ li ∧ cell ∈ iK.2) ∨
      Reach (openCells hh ww cc) cell anchor) →
    ∀ cell ∈ openCells hh ww (processRegions hh ww li largestPts g lst k cc),
      Reach (openCells hh ww (processRegions hh ww li largestPts g lst k cc))
        cell anchor := by
  intro lst
  induction lst with
  | nil =>
    intro k cc _ _ hInv cell hcell
    simp only [processRegions] at hcell ⊢
    rcases hInv cell hcell with ⟨iK, hiK, _⟩ | h
    · cases hiK
    · exact h
  | cons iK rest ih =>
    intro k cc hK hsub hInv
    obtain ⟨i, K⟩ := iK
    simp only [processRegions]
    split
    · rename_i hi
      apply ih k cc
      · intro iK' hiK' hne
        exact hK iK' (List.mem_cons_of_mem _ hiK') hne
      · exact hsub
      · intro cell hcell
        rcases hInv cell hcell with ⟨iK', hiK', hne, hmem⟩ | h
        · rcases List.mem_cons.mp hiK' with rfl | h2
          · exact absurd hi hne
          · exact Or.inl ⟨iK', h2, hne, hmem⟩
        · exact Or.inr h
    · rename_i hi
      split
      · rename_i hpts
        apply ih k cc
        · intro iK' hiK' hne
          exact hK iK' (List.mem_cons_of_mem _ hiK') hne
        · exact hsub
        · intro cell hcell
          rcases hInv cell hcell with ⟨iK', hiK', hne, hmem⟩ | h
          · rcases List.mem_cons.mp hiK' with rfl | h2
            · exfalso
              have hKo := (hK (i, K) (List.mem_cons_self _ _) hi).1
              have hcc := hsub (hKo hmem)
              rw [mem_openCells] at hcc
              exact pointsList_ne_nil hh ww K cell hmem hcc.1 hcc.2.1
                (List.length_eq_zero.mp hpts)
            · exact Or.inl ⟨iK', h2, hne, hmem⟩
          · exact Or.inr h
      · rename_i hpts
        split
        · rename_i heq
          exfalso
          have hlen : (pointsList hh ww K).length ≠ 0 := hpts
          have hsrcs : samplePoints (pointsList hh ww K)
              (min 20 (pointsList hh ww K).length) g k ≠ [] :=
            samplePoints_ne_nil _ _ _ _ (by omega)
          have hcne := candidates_ne_nil
            (samplePoints (pointsList hh ww K)
              (min 20 (pointsList hh ww K).length) g k)
            largestPts (min 20 largestPts.length) g
            (k + min 20 (pointsList hh ww K).length) hsrcs
            (by
              have := List.length_pos.mpr hLnil
              omega)
          obtain ⟨pq, hpq⟩ := scanMin_some _ hcne
          rw [heq] at hpq
          cases hpq
        · rename_i pq heq
          obtain ⟨hKo, hKreach, hKdisj⟩ := hK (i, K) (List.mem_cons_self _ _) hi
          have hptsne : pointsList hh ww K ≠ [] :=
            fun h => hpts (by rw [h]; rfl)
          have hsrcs : samplePoints (pointsList hh ww K)
              (min 20 (pointsList hh ww K).length) g k ≠ [] :=
            samplePoints_ne_nil _ _ _ _
              (by have := List.length_pos.mpr hptsne; omega)
          have hpq_mem := scanMin_mem _ pq heq
          have hcand := candidates_mem _ largestPts _ g _ hLnil pq hpq_mem
          have hp1 : pq.1 ∈ pointsList hh ww K :=
            samplePoints_mem _ _ g k hptsne _ hcand.1
          have hp1K : pq.1 ∈ K := ((mem_pointsList hh ww K pq.1).mp hp1).2.2
          have hp1o : pq.1 ∈ o := hKo hp1K
          obtain ⟨hq2o, hq2anchor⟩ := hLmem pq.2 hcand.2
          have hpqne : pq.1 ≠ pq.2 :=
            fun he => hKdisj pq.1 hp1K (he ▸ hcand.2)
          have hp1c : pq.1 ∈ cells hh ww := hoc hp1o
          have hq2c : pq.2 ∈ cells hh ww := hoc hq2o
          have hopen_sub : openCells hh ww cc ⊆ openCells hh ww
              (fun y x => if carveCell hh ww (tunnelCells pq.1 pq.2) y x
                then false else cc y x) := by
            intro r hr
            rw [mem_openCells_carve]
            rw [mem_openCells] at hr
            exact ⟨⟨hr.1, hr.2.1⟩, Or.inr ((mem_openCells _ _ _ _).mpr hr)⟩
          have hT : ∀ s ∈ tunnelCells pq.1 pq.2, s ∈ openCells hh ww
              (fun y x => if carveCell hh ww (tunnelCells pq.1 pq.2) y x
                then false else cc y x) := by
            intro s hs
            have hsc := tunnelCells_subset_cells hh ww pq.1 pq.2 hp1c hq2c s hs
            rw [mem_cells] at hsc
            rw [mem_openCells_carve]
            exact ⟨hsc, Or.inl (Or.inl hs)⟩
          have hB : ∀ y x, carveCell hh ww (tunnelCells pq.1 pq.2) y x →
              y < hh → x < ww → (y, x) ∈ openCells hh ww
              (fun y x => if carveCell hh ww (tunnelCells pq.1 pq.2) y x
                then false else cc y x) := by
            intro y x hcv hy hx
            rw [mem_openCells_carve]
            exact ⟨⟨hy, hx⟩, Or.inl hcv⟩
          have hp1anchor : Reach (openCells hh ww
              (fun y x => if carveCell hh ww (tunnelCells pq.1 pq.2) y x
                then false else cc y x)) pq.1 anchor := by
            refine reach_trans _ _ _ _ (tunnel_reach_target pq.1 pq.2 _ hT) ?_
            exact reach_mono _ _
              (Finset.Subset.trans hsub hopen_sub) _ _ hq2anchor
          apply ih
          · intro iK' hiK' hne
            exact hK iK' (List.mem_cons_of_mem _ hiK') hne
          · exact Finset.Subset.trans hsub hopen_sub
          · intro cell hcell
            rw [mem_openCells_carve] at hcell
            obtain ⟨⟨hc1, hc2⟩, hcase⟩ := hcell
            rcases hcase with hcv | hold
            · refine Or.inr ?_
              refine reach_trans _ _ _ _ ?_ hp1anchor
              exact carve_reach hh ww pq.1 pq.2 _ hp1c hq2c hpqne hT hB
                cell.1 cell.2 hcv hc1 hc2
            · rcases hInv cell hold with ⟨iK', hiK', hne, hmem⟩ | h
              · rcases List.mem_cons.mp hiK' with rfl | h2
                · refine Or.inr ?_
                  refine reach_trans _ _ _ _ ?_ hp1anchor
                  refine reach_mono o _ (Finset.Subset.trans hsub hopen_sub) _ _ ?_
                  exact hKreach cell pq.1 hmem hp1K
                · exact Or.inl ⟨iK', h2, hne, hmem⟩
              · exact Or.inr (reach_mono _ _ hopen_sub _ _ h)

theorem length_le_one_eq (l : List (Finset (ℕ × ℕ))) (hl : l.length ≤ 1) :
    ∀ K ∈ l, ∀ K' ∈ l, K = K' := by
  match l, hl with
  | [], _ =>
    intro K hK
    cases hK
  | [K0], _ =>
    intro K hK K' hK'
    rw [List.mem_singleton] at hK hK'
    rw [hK, hK']

theorem ensureConnectivity_reach (hh ww : ℕ) (c : ℕ → ℕ → Bool) (g : ℕ → ℕ)
    (a b : ℕ × ℕ)
    (ha : a ∈ openCells hh ww (ensureConnectivity hh ww c g))
    (hb : b ∈ openCells hh ww (ensureConnectivity hh ww c g)) :
    Reach (openCells hh ww (ensureConnectivity hh ww c g)) a b := by
  unfold ensureConnectivity at ha hb ⊢
  by_cases hlen : (componentsOf hh ww c).length ≤ 1
  · rw [if_pos hlen] at ha hb ⊢
    obtain ⟨Ka, hKa, haK⟩ := componentsOf_cover hh ww c a ha
    obtain ⟨Kb, hKb, hbK⟩ := componentsOf_cover hh ww c b hb
    have heq := length_le_one_eq _ hlen Ka hKa Kb hKb
    obtain ⟨r, hro, rfl⟩ := componentsOf_shape hh ww c Ka hKa
    rw [← heq] at hbK
    have h1 := (mem_component_iff (openCells hh ww c) r a hro).mp haK
    have h2 := (mem_component_iff (openCells hh ww c) r b hro).mp hbK
    exact reach_trans _ _ _ _ (reach_symm _ _ _ h1) h2
  · rw [if_neg hlen] at ha hb ⊢
    have hne : componentsOf hh ww c ≠ [] := by
      intro h
      rw [h] at hlen
      exact hlen (by simp)
    have hli : argmaxSizes (componentsOf hh ww c) <
        (componentsOf hh ww c).length := argmaxSizes_lt_length _ hne
    have hKli_mem : (componentsOf hh ww c).getD
        (argmaxSizes (componentsOf hh ww c)) ∅ ∈ componentsOf hh ww c :=
      getD_mem_of_lt _ _ _ hli
    obtain ⟨rli, hrli_o, hKli_eq⟩ := componentsOf_shape hh ww c _ hKli_mem
    set comps := componentsOf hh ww c with hcomps
    set li := argmaxSizes comps with hlidef
    set Kli := comps.getD li ∅ with hklidef
    set o := openCells hh ww c with hodef
    have hKli_getElem : Kli = comps[li] := List.getD_eq_getElem comps ∅ hli
    have hanchor_mem_K : rli ∈ Kli := by
      rw [hKli_eq]
      exact mem_component_self _ _
    have hLnil : pointsList hh ww Kli ≠ [] := by
      have hcells := (mem_openCells hh ww c rli).mp hrli_o
      exact pointsList_ne_nil hh ww Kli rli hanchor_mem_K hcells.1 hcells.2.1
    have hLmem : ∀ s ∈ pointsList hh ww Kli, s ∈ o ∧ Reach o s rli := by
      intro s hs
      have hsK : s ∈ Kli := ((mem_pointsList hh ww Kli s).mp hs).2.2
      rw [hKli_eq] at hsK
      exact ⟨component_subset o rli hrli_o hsK,
        reach_symm _ _ _ ((mem_component_iff o rli s hrli_o).mp hsK)⟩
    have hpw := componentsOf_pairwise hh ww c
    have hK : ∀ iK ∈ comps.enum, iK.1 ≠ li →
        iK.2 ⊆ o ∧ (∀ x y, x ∈ iK.2 → y ∈ iK.2 → Reach o x y) ∧
        (∀ x ∈ iK.2, x ∉ pointsList hh ww Kli) := by
      intro iK hiK hnili
      obtain ⟨i, K⟩ := iK
      obtain ⟨hilt, hKeq⟩ :=
        List.getElem?_eq_some_iff.mp (List.mk_mem_enum_iff_getElem?.mp hiK)
      have hKmem : K ∈ comps := hKeq ▸ List.getElem_mem hilt
      obtain ⟨r, hro, hKc⟩ := componentsOf_shape hh ww c K hKmem
      refine ⟨hKc ▸ component_subset o r hro, ?_, ?_⟩
      · intro x y hx hy
        rw [hKc] at hx hy
        exact reach_trans _ _ _ _
          (reach_symm _ _ _ ((mem_component_iff o r x hro).mp hx))
          ((mem_component_iff o r y hro).mp hy)
      · intro x hx hxL
        have hxKli : x ∈ Kli := ((mem_pointsList hh ww Kli x).mp hxL).2.2
        have hxi : x ∈ comps[i] := hKeq.symm ▸ hx
        have hxli : x ∈ comps[li] := hKli_getElem ▸ hxKli
        have hne2 : i ≠ li := hnili
        rcases Nat.lt_or_ge i li with hil | hil
        · exact (List.pairwise_iff_getElem.mp hpw) i li hilt hli hil x hxi hxli
        · have hlii : li < i := by omega
          exact (List.pairwise_iff_getElem.mp hpw) li i hli hilt hlii x hxli hxi
    have hInv : ∀ cell ∈ o,
        (∃ iK ∈ comps.enum, iK.1 ≠ li ∧ cell ∈ iK.2) ∨ Reach o cell rli := by
      intro cell hcell
      obtain ⟨K, hKmem, hcK⟩ := componentsOf_cover hh ww c cell hcell
      obtain ⟨j, hj, hKeq⟩ := List.mem_iff_getElem.mp hKmem
      by_cases hjli : j = li
      · right
        have hcKli : cell ∈ Kli := by
          rw [hKli_getElem]
          subst hjli
          exact hKeq ▸ hcK
        rw [hKli_eq] at hcKli
        exact reach_symm _ _ _ ((mem_component_iff o rli cell hrli_o).mp hcKli)
      · left
        refine ⟨(j, K), ?_, hjli, hcK⟩
        apply List.mk_mem_enum_iff_getElem?.mpr
        rw [List.getElem?_eq_getElem hj, hKeq]
    have hmain := processRegions_reach hh ww o li (pointsList hh ww Kli) rli g
      (openCells_subset_cells hh ww c) hrli_o hLnil hLmem comps.enum 0 c hK
      (Finset.Subset.refl o) hInv
    exact reach_trans _ _ _ _ (hmain a ha) (reach_symm _ _ _ (hmain b hb))

/-- C1: after connectivity repair the non-wall cells of a cave grid form
exactly one 4-connected component: the 4-connected flood fill started
from any open cell p of the repaired grid reaches every open cell q. The
statement covers every input grid and every generator stream; the
components of the source's scipy label call are modelled by the same
flood fill. -/
theorem claim_C1_single_component (hh ww : ℕ) (c : ℕ → ℕ → Bool) (g : ℕ → ℕ)
    (p q : ℕ × ℕ)
    (hp : p ∈ openCells hh ww (ensureConnectivity hh ww c g))
    (hq : q ∈ openCells hh ww (ensureConnectivity hh ww c g)) :
    q ∈ component (openCells hh ww (ensureConnectivity hh ww c g)) p :=
  mem_component_of_reach _ p q hp (ensureConnectivity_reach hh ww c g p q hp hq)

/-- Witness for C1 on a concrete 3-by-3 grid whose only open cell is the
center: the repaired grid's flood fill from the center contains the
center. -/
theorem claim_C1_single_component_witness :
    (1, 1) ∈ component
      (openCells 3 3 (ensureConnectivity 3 3
        (fun y x => !(y = 1 && x = 1)) (fun _ => 0)))
      (1, 1) :=
  claim_C1_single_component 3 3 (fun y x => !(y = 1 && x = 1)) (fun _ => 0)
    (1, 1) (1, 1) (by decide) (by decide)

theorem applyAutomataRules_border (p : CaveParams) (hh ww : ℕ)
    (c : ℕ → ℕ → Bool) (y x : ℕ)
    (hb : y = 0 ∨ y = hh - 1 ∨ x = 0 ∨ x = ww - 1) :
    applyAutomataRules p hh ww c y x = true := by
  unfold applyAutomataRules
  rw [if_pos hb]

theorem carveCell_interior (hh ww : ℕ) (p q : ℕ × ℕ)
    (hp : interiorCell hh ww p) (hq : interiorCell hh ww q) (y x : ℕ)
    (hc : carveCell hh ww (tunnelCells p q) y x) :
    interiorCell hh ww (y, x) := by
  unfold interiorCell at hp hq ⊢
  rcases hc with htun | ⟨t, _, _, _, h1, h2, h3, h4⟩
  · rw [mem_tunnelCells] at htun
    rcases htun with ⟨h1, h2, h3⟩ | ⟨h1, h2, h3⟩ <;>
      simp only at h1 h2 h3 <;> constructor <;> omega
  · exact ⟨h1, h2, h3, h4⟩

theorem processRegions_border (hh ww li : ℕ) (largestPts : List (ℕ × ℕ))
    (g : ℕ → ℕ) (hLint : ∀ s ∈ largestPts, interiorCell hh ww s) :
    ∀ (lst : List (ℕ × Finset (ℕ × ℕ))) (k : ℕ) (cc : ℕ → ℕ → Bool),
    (∀ iK ∈ lst, ∀ a ∈ iK.2, interiorCell hh ww a) →
    ∀ y x, ¬ interiorCell hh ww (y, x) →
      processRegions hh ww li largestPts g lst k cc y x = cc y x := by
  intro lst
  induction lst with
  | nil =>
    intro k cc _ y x _
    simp only [processRegions]
  | cons iK rest ih =>
    intro k cc hKint y x hni
    obtain ⟨i, K⟩ := iK
    have hKint2 := fun iK' hiK' => hKint iK' (List.mem_cons_of_mem _ hiK')
    simp only [processRegions]
    split
    · exact ih k cc hKint2 y x hni
    · split
      · exact ih k cc hKint2 y x hni
      · rename_i hi hpts
        cases hsm : scanMin (candidates (samplePoints (pointsList hh ww K)
            (min 20 (pointsList hh ww K).length) g k) largestPts
            (min 20 largestPts.length) g
            (k + min 20 (pointsList hh ww K).length)) with
        | none =>
          exact ih _ cc hKint2 y x hni
        | some pq =>
          have hptsne : pointsList hh ww K ≠ [] :=
            fun h => hpts (by rw [h]; rfl)
          have hpq_mem := scanMin_mem _ pq hsm
          have hLne : largestPts ≠ [] := by
            intro hL0
            rw [hL0] at hsm
            rw [show min 20 ([] : List (ℕ × ℕ)).length = 0 from rfl,
              candidates_nt_zero] at hsm
            exact absurd hsm (by simp [scanMin])
          have hcand := candidates_mem _ largestPts _ g _ hLne pq hpq_mem
          have hp1 : pq.1 ∈ pointsList hh ww K :=
            samplePoints_mem _ _ g k hptsne _ hcand.1
          have hp1K : pq.1 ∈ K := ((mem_pointsList hh ww K pq.1).mp hp1).2.2
          have hp1int : interiorCell hh ww pq.1 :=
            hKint (i, K) (List.mem_cons_self _ _) pq.1 hp1K
          have hq2int : interiorCell hh ww pq.2 := hLint pq.2 hcand.2
          have hnc : ¬ carveCell hh ww (tunnelCells pq.1 pq.2) y x :=
            fun hcv =>
              hni (carveCell_interior hh ww pq.1 pq.2 hp1int hq2int y x hcv)
          have hstep := ih (k + min 20 (pointsList hh ww K).length +
              min 20 (pointsList hh ww K).length * min 20 largestPts.length)
            (fun y2 x2 => if carveCell hh ww (tunnelCells pq.1 pq.2) y2 x2
              then false else cc y2 x2)
            hKint2 y x hni
          exact hstep.trans (if_neg hnc)

theorem ensureConnectivity_border (hh ww : ℕ) (c : ℕ → ℕ → Bool) (g : ℕ → ℕ)
    (hint : ∀ q ∈ openCells hh ww c, interiorCell hh ww q) (y x : ℕ)
    (hni : ¬ interiorCell hh ww (y, x)) :
    ensureConnectivity hh ww c g y x = c y x := by
  unfold ensureConnectivity
  split
  · rfl
  · apply processRegions_border
    · intro s hs
      have hsK := ((mem_pointsList hh ww _ s).mp hs).2.2
      have hKmem := getD_mem_of_lt (componentsOf hh ww c)
        (argmaxSizes (componentsOf hh ww c)) ∅
        (argmaxSizes_lt_length _ (by
          intro h0
          rename_i hlen
          rw [h0] at hlen
          exact hlen (by simp)))
      obtain ⟨r, hro, hKc⟩ := componentsOf_shape hh ww c _ hKmem
      rw [hKc] at hsK
      exact hint s (component_subset _ r hro hsK)
    · intro iK hiK a haK
      obtain ⟨i, K⟩ := iK
      obtain ⟨hilt, hKeq⟩ :=
        List.getElem?_eq_some_iff.mp (List.mk_mem_enum_iff_getElem?.mp hiK)
      have hKmem : K ∈ componentsOf hh ww c := hKeq ▸ List.getElem_mem hilt
      obtain ⟨r, hro, hKc⟩ := componentsOf_shape hh ww c K hKmem
      rw [hKc] at haK
      exact hint a (component_subset _ r hro haK)
    · exact hni

/-- C4: every border cell of a generated cave grid is a wall, after the
automata iterations (any positive count, matching the spec's positive
iteration-count input contract) and still after connectivity repair,
whose carving stays strictly in the grid interior. -/
theorem claim_C4_border_walls (p : CaveParams) (ww hh : ℕ) (u : ℕ → ℕ → ℚ)
    (g : ℕ → ℕ) (hit : 1 ≤ p.iterations) (y x : ℕ)
    (hy : y < hh) (hx : x < ww)
    (hb : y = 0 ∨ y = hh - 1 ∨ x = 0 ∨ x = ww - 1) :
    generate p ww hh u g y x = true := by
  unfold generate
  have hiter : ∀ (y2 x2 : ℕ), (y2 = 0 ∨ y2 = hh - 1 ∨ x2 = 0 ∨ x2 = ww - 1) →
      (applyAutomataRules p hh ww)^[p.iterations] (caveInit p u) y2 x2 = true := by
    obtain ⟨n, hn⟩ : ∃ n, p.iterations = n + 1 := ⟨p.iterations - 1, by omega⟩
    intro y2 x2 hb2
    rw [hn, Function.iterate_succ_apply']
    exact applyAutomataRules_border p hh ww _ y2 x2 hb2
  have hint : ∀ q ∈ openCells hh ww
      ((applyAutomataRules p hh ww)^[p.iterations] (caveInit p u)),
      interiorCell hh ww q := by
    intro q hq
    rw [mem_openCells] at hq
    by_contra hni
    unfold interiorCell at hni
    have hbq : q.1 = 0 ∨ q.1 = hh - 1 ∨ q.2 = 0 ∨ q.2 = ww - 1 := by
      push_neg at hni
      omega
    have := hiter q.1 q.2 hbq
    rw [hq.2.2] at this
    cases this
  rw [ensureConnectivity_border hh ww _ g hint y x
    (by unfold interiorCell; simp only; omega)]
  exact hiter y x hb

/-- Witness for C4 with one iteration on a 3-by-3 grid: the generated
grid holds a wall at the border cell (0, 0). -/
theorem claim_C4_border_walls_witness :
    generate ⟨45/100, 4, 3, 1⟩ 3 3 (fun _ _ => 1/2) (fun _ => 0) 0 0 = true :=
  claim_C4_border_walls ⟨45/100, 4, 3, 1⟩ 3 3 (fun _ _ => 1/2) (fun _ => 0)
    (by decide) 0 0 (by decide) (by decide) (by decide)

end ProtoIsland
